import Mathlib

set_option maxHeartbeats 1000000

/- Shallow embedding of `src/skills/security-audit/scripts/auditor.py`.

   Python strings are modelled as `List Char`; a scanned file's decoded text is a
   `List Char` (the source reads with `errors='ignore'`, i.e. lossy decoding, so the
   text is whatever decoding produced).  A filesystem entry enumerated by
   `self.root.rglob('*')` is modelled by its path components relative to the resolved
   root together with its `is_file()` status and the result of reading it
   (`none` models a read that raises).  `re.findall` is modelled by a scanner that
   tries the pattern at each position, emits the match and continues after it on
   success, and advances one character on failure, exactly as the regex engine does
   for these patterns (none of which can match the empty string). -/

/- ## Character classes of the three regex patterns -/

def quoteS : Char := Char.ofNat 39

def quoteD : Char := Char.ofNat 34

def backtickChar : Char := Char.ofNat 96

/-- Character class `[A-Z0-9_]` used by the env-var pattern. -/
def isEnvChar (c : Char) : Bool :=
  ('A' ≤ c && c ≤ 'Z') || ('0' ≤ c && c ≤ '9') || c == '_'

/-- Character class `[A-Za-z0-9+/]` used by the blob pattern. -/
def isB64Char (c : Char) : Bool :=
  ('A' ≤ c && c ≤ 'Z') || ('a' ≤ c && c ≤ 'z') || ('0' ≤ c && c ≤ '9') ||
  c == '+' || c == '/'

/-- Python's `\s` on str patterns: the Unicode whitespace set of the regex
engine, which is code points 0x09-0x0D, 0x1C-0x20, 0x85, 0xA0, 0x1680,
0x2000-0x200A, 0x2028-0x2029, 0x202F, 0x205F and 0x3000. -/
def isPySpace (c : Char) : Bool :=
  (0x09 ≤ c.val && c.val ≤ 0x0D) || (0x1C ≤ c.val && c.val ≤ 0x20) ||
  c.val == 0x85 || c.val == 0xA0 || c.val == 0x1680 ||
  (0x2000 ≤ c.val && c.val ≤ 0x200A) ||
  (0x2028 ≤ c.val && c.val ≤ 0x2029) ||
  c.val == 0x202F || c.val == 0x205F || c.val == 0x3000

/-- Characters excluded by the URL pattern's character class: whitespace (the
full `\s` set) and the delimiters double quote, single quote, backtick,
parentheses, angle brackets. -/
def isUrlStop (c : Char) : Bool :=
  isPySpace c ||
  c == quoteD || c == quoteS || c == backtickChar ||
  c == '(' || c == ')' || c == '<' || c == '>'

/-- The character class of the quote alternatives in the env-var pattern. -/
def isQuote (c : Char) : Bool := c == quoteS || c == quoteD

/- ## Generic findall scanner -/

/-- Strip an expected literal prefix from a list, as a regex matches a literal. -/
def dropPre {α : Type} [DecidableEq α] : List α → List α → Option (List α)
  | [], cs => some cs
  | _ :: _, [] => none
  | p :: ps, c :: cs => if p = c then dropPre ps cs else none

/-- Fuel-driven worker for the `re.findall` scan. -/
def findAllAux {α : Type} (m : List Char → Option (α × List Char)) :
    Nat → List Char → List α
  | 0, _ => []
  | _ + 1, [] => []
  | fuel + 1, c :: cs =>
    match m (c :: cs) with
    | some (a, rest) => a :: findAllAux m fuel rest
    | none => findAllAux m fuel cs

/-- `re.findall` over a text: try the pattern at each position from the left; on a
match, record it and continue right after the matched span. -/
def reFindall {α : Type} (m : List Char → Option (α × List Char)) (cs : List Char) :
    List α :=
  findAllAux m cs.length cs

/-- A matcher consumes at least one character whenever it succeeds. -/
def Shrinks {α : Type} (m : List Char → Option (α × List Char)) : Prop :=
  ∀ cs a rest, m cs = some (a, rest) → rest.length < cs.length

/- ## The three regex matchers, one position at a time -/

/-- Matcher of `https?://[^\s"'()<>]+` (the class excludes whitespace, both quotes,
backtick, parentheses, angle brackets) at the start of the text: the greedy
alternative `https` is tried before `http`, then the run of allowed characters must
be non-empty and is taken maximally. -/
def urlMatchAt (cs : List Char) : Option (List Char × List Char) :=
  match dropPre "https://".toList cs with
  | some rest =>
    let run := rest.takeWhile (fun c => !isUrlStop c)
    if run.isEmpty then none
    else some ("https://".toList ++ run, rest.dropWhile (fun c => !isUrlStop c))
  | none =>
    match dropPre "http://".toList cs with
    | some rest =>
      let run := rest.takeWhile (fun c => !isUrlStop c)
      if run.isEmpty then none
      else some ("http://".toList ++ run, rest.dropWhile (fun c => !isUrlStop c))
    | none => none

/-- First alternative of the env-var pattern: `process\.env\.([A-Z0-9_]+)`. -/
def envBranch1 (cs : List Char) : Option (List Char × List Char) :=
  match dropPre "process.env.".toList cs with
  | none => none
  | some r1 =>
    let run := r1.takeWhile isEnvChar
    if run.isEmpty then none else some (run, r1.dropWhile isEnvChar)

/-- Second alternative: `os\.environ\[['"]([A-Z0-9_]+)['"]\]` (the opening and
closing quote are matched independently by the same two-character class). -/
def envBranch2 (cs : List Char) : Option (List Char × List Char) :=
  match dropPre "os.environ[".toList cs with
  | none => none
  | some r1 =>
    match r1 with
    | [] => none
    | q1 :: r2 =>
      if isQuote q1 then
        let run := r2.takeWhile isEnvChar
        if run.isEmpty then none
        else
          match r2.dropWhile isEnvChar with
          | q2 :: b :: r3 => if isQuote q2 && b == ']' then some (run, r3) else none
          | _ => none
      else none

/-- Third alternative: `getenv\(['"]([A-Z0-9_]+)['"]\)`. -/
def envBranch3 (cs : List Char) : Option (List Char × List Char) :=
  match dropPre "getenv(".toList cs with
  | none => none
  | some r1 =>
    match r1 with
    | [] => none
    | q1 :: r2 =>
      if isQuote q1 then
        let run := r2.takeWhile isEnvChar
        if run.isEmpty then none
        else
          match r2.dropWhile isEnvChar with
          | q2 :: b :: r3 => if isQuote q2 && b == ')' then some (run, r3) else none
          | _ => none
      else none

/-- The env-var pattern: the three alternatives are tried left to right at each
position; the value produced is the single captured group (the NAME), as the
source iterates over the groups of each findall tuple and keeps the non-empty one. -/
def envMatchAt (cs : List Char) : Option (List Char × List Char) :=
  match envBranch1 cs with
  | some x => some x
  | none =>
    match envBranch2 cs with
    | some x => some x
    | none => envBranch3 cs

/-- Matcher of `[A-Za-z0-9+/]{128,}`: the greedy repetition takes the maximal run of
base64-alphabet characters from this position and succeeds when it has at least 128
of them. -/
def blobMatchAt (cs : List Char) : Option (List Char × List Char) :=
  let run := cs.takeWhile isB64Char
  if 128 ≤ run.length then some (run, cs.dropWhile isB64Char) else none

/- ## Report, filesystem entries, and the auditor -/

/-- The report dictionary built by `RepoAuditor.__init__`.  The two set-valued
fields are modelled as duplicate-free lists in insertion order; `audit` replaces
them by their sorted versions before returning. -/
structure Report where
  network_endpoints : List (List Char)
  env_vars : List (List Char)
  dangerous_calls : List (List Char × List Char)
  suspicious_blobs : List (List Char × Nat)
  files_scanned : Nat
deriving DecidableEq

def emptyReport : Report := ⟨[], [], [], [], 0⟩

/-- One entry enumerated by `self.root.rglob('*')`: its path components relative to
the resolved root (every enumerated path lies strictly below the root, so its full
component tuple is the root's components followed by these), its `is_file()`
status, and the text `read_text(errors='ignore')` returns, or `none` if opening or
reading raises. -/
structure FSEntry where
  parts : List (List Char)
  isFile : Bool
  content : Option (List Char)
deriving DecidableEq

/-- The path filter of `RepoAuditor.audit`, applied to the full component tuple
`path.parts` of an enumerated path: a component starting with a dot, or a component
equal to `node_modules` or to `venv`, excludes the path. -/
def isFiltered (parts : List (List Char)) : Bool :=
  parts.any (fun p => p.head? == some '.') ||
  parts.contains "node_modules".toList || parts.contains "venv".toList

/-- `str` of a relative `PurePosixPath`: components joined by `/`. -/
def joinPath : List (List Char) → List Char
  | [] => []
  | [p] => p
  | p :: ps => p ++ '/' :: joinPath ps

/-- `path.relative_to(root)` on component tuples: strip the root's components;
`none` models the `ValueError` raised when `root` is not a prefix. -/
def relativeTo (root full : List (List Char)) : Option (List (List Char)) :=
  dropPre root full

/-- The fixed signature list of `scan_file`. -/
def dangerous_fns : List (List Char) :=
  ["eval(".toList, "exec(".toList, "spawn(".toList, "fork(".toList,
   "os.system(".toList, "subprocess.run(".toList, "setTimeout(".toList,
   "setInterval(".toList]

/-- `set.add` on the list model of a set. -/
def addUnique (l : List (List Char)) (s : List Char) : List (List Char) :=
  if s ∈ l then l else l ++ [s]

/-- Python's substring test `sub in text`: `sub` occurs at some position of `text`. -/
def containsSub (sub : List Char) : List Char → Bool
  | [] => sub.isEmpty
  | c :: cs => (dropPre sub (c :: cs)).isSome || containsSub sub cs

/-- `RepoAuditor.scan_file`.  A failed read (`content = none`) is the `except`
path: the report is left untouched.  Otherwise the four detectors run in source
order; URL and env-var matches go into the sets, blob and dangerous-call findings
are appended with the file's root-relative path.  `relative_to` cannot fail for
paths produced by `rglob`, but its failure is modelled faithfully: the exception
would abandon the remaining detectors while keeping the set insertions already
made. -/
def scanFile (root full : List (List Char)) (content : Option (List Char))
    (r : Report) : Report :=
  match content with
  | none => r
  | some text =>
    let r1 := { r with network_endpoints :=
      (reFindall urlMatchAt text).foldl addUnique r.network_endpoints }
    let r2 := { r1 with env_vars :=
      (reFindall envMatchAt text).foldl addUnique r1.env_vars }
    match relativeTo root full with
    | none => r2
    | some rel =>
      let f := joinPath rel
      let r3 := { r2 with suspicious_blobs :=
        r2.suspicious_blobs ++
          (reFindall blobMatchAt text).map (fun (b : List Char) => (f, b.length)) }
      let hits := dangerous_fns.filter (fun (fn : List Char) => containsSub fn text)
      { r3 with dangerous_calls := r3.dangerous_calls ++ hits.map (fun fn => (f, fn)) }

/-- The body of the `for path in self.root.rglob('*')` loop. -/
def auditStep (root : List (List Char)) (r : Report) (e : FSEntry) : Report :=
  if isFiltered (root ++ e.parts) then r
  else if e.isFile then
    scanFile root (root ++ e.parts) e.content
      { r with files_scanned := r.files_scanned + 1 }
  else r

/-- Python `sorted` on the model: ascending lexicographic (by character code,
case-sensitive) order on the strings. -/
def sortLC (l : List (List Char)) : List (List Char) :=
  List.insertionSort (fun a b => a ≤ b) l

/-- `RepoAuditor.audit`: walk the enumerated entries, then convert the two sets to
sorted lists. -/
def audit (root : List (List Char)) (entries : List FSEntry) : Report :=
  let r := entries.foldl (auditStep root) emptyReport
  { r with network_endpoints := sortLC r.network_endpoints,
           env_vars := sortLC r.env_vars }

/-- The possible consumed spans of a successful env-var match capturing `n`:
one for each alternative of the pattern. -/
def EnvShape (w n : List Char) : Prop :=
  w = "process.env.".toList ++ n ∨
  (∃ q1 q2, isQuote q1 = true ∧ isQuote q2 = true ∧
    (w = "os.environ[".toList ++ q1 :: (n ++ [q2, ']']) ∨
     w = "getenv(".toList ++ q1 :: (n ++ [q2, ')'])))

/-- Modelled from the spec's wording, for comparison with the blob matcher: the
maximal runs of characters satisfying `p`, in order of appearance. -/
def maximalRunsAux (p : Char → Bool) : Nat → List Char → List (List Char)
  | 0, _ => []
  | _ + 1, [] => []
  | fuel + 1, c :: cs =>
    if p c then (c :: cs.takeWhile p) :: maximalRunsAux p fuel (cs.dropWhile p)
    else maximalRunsAux p fuel cs

def maximalRuns (p : Char → Bool) (l : List Char) : List (List Char) :=
  maximalRunsAux p l.length l

/- ## Lemmas: literal-prefix stripping -/

theorem dropPre_append {α : Type} [DecidableEq α] (l r : List α) :
    dropPre l (l ++ r) = some r := by
  induction l with
  | nil => rfl
  | cons c cs ih => simp [dropPre, ih]

theorem dropPre_eq_some {α : Type} [DecidableEq α] :
    ∀ {l cs r : List α}, dropPre l cs = some r → cs = l ++ r := by
  intro l
  induction l with
  | nil =>
    intro cs r h
    simp [dropPre] at h
    simp [h]
  | cons p ps ih =>
    intro cs r h
    cases cs with
    | nil => simp [dropPre] at h
    | cons c cs' =>
      by_cases hpc : p = c
      · subst hpc
        simp only [dropPre, if_pos rfl] at h
        simp [ih h]
      · simp [dropPre, hpc] at h

theorem dropPre_cons_ne {α : Type} [DecidableEq α] {p c : α} (ps cs : List α)
    (h : p ≠ c) : dropPre (p :: ps) (c :: cs) = none := by
  simp [dropPre, h]

/- ## Lemmas: the findall scanner -/

theorem length_dropWhile_le' (p : Char → Bool) (l : List Char) :
    (l.dropWhile p).length ≤ l.length := by
  conv_rhs => rw [← List.takeWhile_append_dropWhile p l]
  rw [List.length_append]
  omega

theorem findAllAux_congr {α : Type} {m : List Char → Option (α × List Char)}
    (hm : Shrinks m) :
    ∀ f₁ f₂ cs, cs.length ≤ f₁ → cs.length ≤ f₂ →
      findAllAux m f₁ cs = findAllAux m f₂ cs := by
  intro f₁
  induction f₁ with
  | zero =>
    intro f₂ cs h1 _
    have hcs : cs = [] := List.length_eq_zero.mp (Nat.le_zero.mp h1)
    subst hcs
    cases f₂ <;> rfl
  | succ f ih =>
    intro f₂ cs h1 h2
    cases cs with
    | nil => cases f₂ <;> rfl
    | cons c cs' =>
      cases f₂ with
      | zero => simp at h2
      | succ f₂' =>
        simp only [List.length_cons] at h1 h2
        simp only [findAllAux]
        cases hmc : m (c :: cs') with
        | none => exact ih f₂' cs' (by omega) (by omega)
        | some ar =>
          obtain ⟨a, rest⟩ := ar
          have hr := hm _ _ _ hmc
          simp only [List.length_cons] at hr
          show a :: findAllAux m f rest = a :: findAllAux m f₂' rest
          rw [ih f₂' rest (by omega) (by omega)]

theorem reFindall_cons_none {α : Type} {m : List Char → Option (α × List Char)}
    {c : Char} {cs : List Char} (h : m (c :: cs) = none) :
    reFindall m (c :: cs) = reFindall m cs := by
  unfold reFindall
  simp only [List.length_cons, findAllAux, h]

theorem reFindall_cons_some {α : Type} {m : List Char → Option (α × List Char)}
    (hm : Shrinks m) {c : Char} {cs : List Char} {a : α} {rest : List Char}
    (h : m (c :: cs) = some (a, rest)) :
    reFindall m (c :: cs) = a :: reFindall m rest := by
  unfold reFindall
  simp only [List.length_cons, findAllAux, h]
  have hr := hm _ _ _ h
  simp only [List.length_cons] at hr
  rw [findAllAux_congr hm cs.length rest.length rest (by omega) (le_refl _)]

theorem findAllAux_sound {α : Type} {m : List Char → Option (α × List Char)}
    (P : α → Prop) (hP : ∀ cs a rest, m cs = some (a, rest) → P a) :
    ∀ fuel cs, ∀ a ∈ findAllAux m fuel cs, P a := by
  intro fuel
  induction fuel with
  | zero => intro cs a ha; simp [findAllAux] at ha
  | succ f ih =>
    intro cs a ha
    cases cs with
    | nil => simp [findAllAux] at ha
    | cons c cs' =>
      simp only [findAllAux] at ha
      cases hmc : m (c :: cs') with
      | none =>
        rw [hmc] at ha
        exact ih cs' a ha
      | some ar =>
        obtain ⟨b, rest⟩ := ar
        rw [hmc] at ha
        simp only [List.mem_cons] at ha
        cases ha with
        | inl hab => exact hab ▸ hP _ _ _ hmc
        | inr hmem => exact ih rest a hmem

theorem reFindall_sound {α : Type} {m : List Char → Option (α × List Char)}
    (P : α → Prop) (hP : ∀ cs a rest, m cs = some (a, rest) → P a)
    (cs : List Char) : ∀ a ∈ reFindall m cs, P a :=
  findAllAux_sound P hP cs.length cs

/- ## Lemmas: takeWhile and dropWhile -/

theorem takeWhile_all_append {p : Char → Bool} :
    ∀ {l r : List Char}, (∀ c ∈ l, p c = true) →
      (∀ c, r.head? = some c → p c = false) →
      (l ++ r).takeWhile p = l ∧ (l ++ r).dropWhile p = r := by
  intro l
  induction l with
  | nil =>
    intro r _ hr
    cases r with
    | nil => exact ⟨rfl, rfl⟩
    | cons c r' =>
      have hc := hr c rfl
      constructor
      · simp [List.takeWhile_cons, hc]
      · simp [List.dropWhile_cons, hc]
  | cons a l' ih =>
    intro r hl hr
    have ha : p a = true := hl a (by simp)
    obtain ⟨h1, h2⟩ := ih (fun c hc => hl c (by simp [hc])) hr
    constructor
    · simp [List.takeWhile_cons, ha, h1]
    · simp [List.dropWhile_cons, ha, h2]

theorem head?_dropWhile_false {p : Char → Bool} {l : List Char} {c : Char}
    (h : (l.dropWhile p).head? = some c) : p c = false := by
  have hw := List.head?_dropWhile_not p l
  rw [h] at hw
  exact hw

/- ## Shape lemmas for the single-position matchers -/

theorem urlMatchAt_some {cs u rest : List Char}
    (h : urlMatchAt cs = some (u, rest)) :
    ∃ scheme run, (scheme = "https://".toList ∨ scheme = "http://".toList) ∧
      u = scheme ++ run ∧ run ≠ [] ∧ (∀ c ∈ run, isUrlStop c = false) ∧
      cs = u ++ rest ∧ (∀ c, rest.head? = some c → isUrlStop c = true) := by
  have main : ∀ (sch : List Char) (r : List Char), dropPre sch cs = some r →
      (if (r.takeWhile (fun c => !isUrlStop c)).isEmpty then none
       else some (sch ++ r.takeWhile (fun c => !isUrlStop c),
                  r.dropWhile (fun c => !isUrlStop c))) = some (u, rest) →
      u = sch ++ r.takeWhile (fun c => !isUrlStop c) ∧
      r.takeWhile (fun c => !isUrlStop c) ≠ [] ∧
      (∀ c ∈ r.takeWhile (fun c => !isUrlStop c), isUrlStop c = false) ∧
      cs = u ++ rest ∧ (∀ c, rest.head? = some c → isUrlStop c = true) := by
    intro sch r hdrop hif
    split at hif
    · cases hif
    · rename_i hne
      simp only [Option.some.injEq, Prod.mk.injEq] at hif
      obtain ⟨hu, hrest⟩ := hif
      have hne' : r.takeWhile (fun c => !isUrlStop c) ≠ [] := by
        intro hc; exact hne (by simp [hc])
      refine ⟨hu.symm, hne', ?_, ?_, ?_⟩
      · intro c hc
        have := List.mem_takeWhile_imp hc
        simpa using this
      · rw [dropPre_eq_some hdrop, ← hu, ← hrest, List.append_assoc,
            List.takeWhile_append_dropWhile]
      · intro c hc
        rw [← hrest] at hc
        have := head?_dropWhile_false hc
        simpa using this
  unfold urlMatchAt at h
  cases h1 : dropPre "https://".toList cs with
  | some r =>
    rw [h1] at h
    obtain ⟨hu, hne, hmem, hcs, hrest⟩ := main _ r h1 h
    exact ⟨"https://".toList, _, Or.inl rfl, hu, hne, hmem, hcs, hrest⟩
  | none =>
    rw [h1] at h
    cases h2 : dropPre "http://".toList cs with
    | some r =>
      rw [h2] at h
      obtain ⟨hu, hne, hmem, hcs, hrest⟩ := main _ r h2 h
      exact ⟨"http://".toList, _, Or.inr rfl, hu, hne, hmem, hcs, hrest⟩
    | none => rw [h2] at h; cases h
theorem envBranch1_some {cs n rest : List Char}
    (h : envBranch1 cs = some (n, rest)) :
    n ≠ [] ∧ (∀ c ∈ n, isEnvChar c = true) ∧
      cs = "process.env.".toList ++ (n ++ rest) ∧
      (∀ c, rest.head? = some c → isEnvChar c = false) := by
  cases h1 : dropPre "process.env.".toList cs with
  | none => simp only [envBranch1, h1] at h; cases h
  | some r1 =>
    simp only [envBranch1, h1] at h
    by_cases hemp : (r1.takeWhile isEnvChar).isEmpty = true
    · rw [if_pos hemp] at h; cases h
    · rw [if_neg hemp] at h
      simp only [Option.some.injEq, Prod.mk.injEq] at h
      obtain ⟨hn, hrest⟩ := h
      have hne : n ≠ [] := by
        rw [← hn]; intro hc; exact hemp (by simp [hc])
      refine ⟨hne, ?_, ?_, ?_⟩
      · intro c hc
        rw [← hn] at hc
        exact List.mem_takeWhile_imp hc
      · rw [dropPre_eq_some h1, ← hn, ← hrest, List.takeWhile_append_dropWhile]
      · intro c hc
        rw [← hrest] at hc
        exact head?_dropWhile_false hc

theorem envBranch2_some {cs n rest : List Char}
    (h : envBranch2 cs = some (n, rest)) :
    n ≠ [] ∧ (∀ c ∈ n, isEnvChar c = true) ∧
      ∃ q1 q2, isQuote q1 = true ∧ isQuote q2 = true ∧
        cs = "os.environ[".toList ++ q1 :: (n ++ q2 :: ']' :: rest) := by
  cases h1 : dropPre "os.environ[".toList cs with
  | none => simp only [envBranch2, h1] at h; cases h
  | some r1 =>
    simp only [envBranch2, h1] at h
    cases r1 with
    | nil => cases h
    | cons q1 r2 =>
      dsimp only at h
      by_cases hq1 : isQuote q1 = true
      · rw [if_pos hq1] at h
        by_cases hemp : (r2.takeWhile isEnvChar).isEmpty = true
        · rw [if_pos hemp] at h; cases h
        · rw [if_neg hemp] at h
          cases hdw : r2.dropWhile isEnvChar with
          | nil => rw [hdw] at h; cases h
          | cons q2 tl =>
            cases tl with
            | nil => rw [hdw] at h; cases h
            | cons b r3 =>
              rw [hdw] at h
              dsimp only at h
              by_cases hg : (isQuote q2 && b == ']') = true
              · rw [if_pos hg] at h
                simp only [Option.some.injEq, Prod.mk.injEq] at h
                obtain ⟨hn, hrest⟩ := h
                simp only [Bool.and_eq_true, beq_iff_eq] at hg
                obtain ⟨hq2, hb⟩ := hg
                subst hb
                subst hrest
                have hne : n ≠ [] := by
                  rw [← hn]; intro hc; exact hemp (by simp [hc])
                refine ⟨hne, ?_, q1, q2, hq1, hq2, ?_⟩
                · intro c hc
                  rw [← hn] at hc
                  exact List.mem_takeWhile_imp hc
                · have hr2 : r2 = n ++ q2 :: ']' :: r3 := by
                    conv_lhs => rw [← List.takeWhile_append_dropWhile isEnvChar r2]
                    rw [hdw, hn]
                  rw [dropPre_eq_some h1, hr2]
              · rw [if_neg hg] at h; cases h
      · rw [if_neg hq1] at h; cases h

theorem envBranch3_some {cs n rest : List Char}
    (h : envBranch3 cs = some (n, rest)) :
    n ≠ [] ∧ (∀ c ∈ n, isEnvChar c = true) ∧
      ∃ q1 q2, isQuote q1 = true ∧ isQuote q2 = true ∧
        cs = "getenv(".toList ++ q1 :: (n ++ q2 :: ')' :: rest) := by
  cases h1 : dropPre "getenv(".toList cs with
  | none => simp only [envBranch3, h1] at h; cases h
  | some r1 =>
    simp only [envBranch3, h1] at h
    cases r1 with
    | nil => cases h
    | cons q1 r2 =>
      dsimp only at h
      by_cases hq1 : isQuote q1 = true
      · rw [if_pos hq1] at h
        by_cases hemp : (r2.takeWhile isEnvChar).isEmpty = true
        · rw [if_pos hemp] at h; cases h
        · rw [if_neg hemp] at h
          cases hdw : r2.dropWhile isEnvChar with
          | nil => rw [hdw] at h; cases h
          | cons q2 tl =>
            cases tl with
            | nil => rw [hdw] at h; cases h
            | cons b r3 =>
              rw [hdw] at h
              dsimp only at h
              by_cases hg : (isQuote q2 && b == ')') = true
              · rw [if_pos hg] at h
                simp only [Option.some.injEq, Prod.mk.injEq] at h
                obtain ⟨hn, hrest⟩ := h
                simp only [Bool.and_eq_true, beq_iff_eq] at hg
                obtain ⟨hq2, hb⟩ := hg
                subst hb
                subst hrest
                have hne : n ≠ [] := by
                  rw [← hn]; intro hc; exact hemp (by simp [hc])
                refine ⟨hne, ?_, q1, q2, hq1, hq2, ?_⟩
                · intro c hc
                  rw [← hn] at hc
                  exact List.mem_takeWhile_imp hc
                · have hr2 : r2 = n ++ q2 :: ')' :: r3 := by
                    conv_lhs => rw [← List.takeWhile_append_dropWhile isEnvChar r2]
                    rw [hdw, hn]
                  rw [dropPre_eq_some h1, hr2]
              · rw [if_neg hg] at h; cases h
      · rw [if_neg hq1] at h; cases h

theorem envMatchAt_shape {cs n rest : List Char}
    (h : envMatchAt cs = some (n, rest)) :
    n ≠ [] ∧ (∀ c ∈ n, isEnvChar c = true) ∧
      ∃ w, cs = w ++ rest ∧ EnvShape w n := by
  unfold envMatchAt at h
  cases hb1 : envBranch1 cs with
  | some x =>
    rw [hb1] at h
    dsimp only at h
    rw [Option.some.injEq] at h
    subst h
    obtain ⟨hne, hmem, hcs, _⟩ := envBranch1_some hb1
    exact ⟨hne, hmem, "process.env.".toList ++ n,
      by rw [hcs, List.append_assoc], Or.inl rfl⟩
  | none =>
    rw [hb1] at h
    dsimp only at h
    cases hb2 : envBranch2 cs with
    | some x =>
      rw [hb2] at h
      dsimp only at h
      rw [Option.some.injEq] at h
      subst h
      obtain ⟨hne, hmem, q1, q2, hq1, hq2, hcs⟩ := envBranch2_some hb2
      refine ⟨hne, hmem, "os.environ[".toList ++ q1 :: (n ++ [q2, ']']), ?_,
        Or.inr ⟨q1, q2, hq1, hq2, Or.inl rfl⟩⟩
      rw [hcs]
      simp
    | none =>
      rw [hb2] at h
      dsimp only at h
      obtain ⟨hne, hmem, q1, q2, hq1, hq2, hcs⟩ := envBranch3_some h
      refine ⟨hne, hmem, "getenv(".toList ++ q1 :: (n ++ [q2, ')']), ?_,
        Or.inr ⟨q1, q2, hq1, hq2, Or.inr rfl⟩⟩
      rw [hcs]
      simp

theorem urlMatchAt_shrinks : Shrinks urlMatchAt := by
  intro cs a rest h
  obtain ⟨scheme, run, hs, hu, hrun, _, hcs, _⟩ := urlMatchAt_some h
  have ha : a ≠ [] := by
    rw [hu]
    cases hs with
    | inl h' => subst h'; simp
    | inr h' => subst h'; simp
  have hlen := congrArg List.length hcs
  rw [List.length_append] at hlen
  have := List.length_pos.mpr ha
  omega

theorem envMatchAt_shrinks : Shrinks envMatchAt := by
  intro cs a rest h
  obtain ⟨hne, _, w, hcs, hshape⟩ := envMatchAt_shape h
  have hw : w ≠ [] := by
    rcases hshape with h1 | ⟨q1, q2, _, _, h2 | h3⟩
    · subst h1
      intro hc
      rw [List.append_eq_nil] at hc
      exact absurd hc.1 (by decide)
    · subst h2
      intro hc
      rw [List.append_eq_nil] at hc
      exact absurd hc.2 (by simp)
    · subst h3
      intro hc
      rw [List.append_eq_nil] at hc
      exact absurd hc.2 (by simp)
  have hlen := congrArg List.length hcs
  rw [List.length_append] at hlen
  have := List.length_pos.mpr hw
  omega

theorem blobMatchAt_some {cs run rest : List Char}
    (h : blobMatchAt cs = some (run, rest)) :
    run = cs.takeWhile isB64Char ∧ rest = cs.dropWhile isB64Char ∧
      128 ≤ run.length := by
  unfold blobMatchAt at h
  dsimp only at h
  by_cases hc : 128 ≤ (cs.takeWhile isB64Char).length
  · rw [if_pos hc] at h
    simp only [Option.some.injEq, Prod.mk.injEq] at h
    obtain ⟨h1, h2⟩ := h
    exact ⟨h1.symm, h2.symm, h1 ▸ hc⟩
  · rw [if_neg hc] at h; cases h

theorem blobMatchAt_none {cs : List Char}
    (h : (cs.takeWhile isB64Char).length < 128) : blobMatchAt cs = none := by
  unfold blobMatchAt
  dsimp only
  rw [if_neg (by omega)]

theorem blobMatchAt_shrinks : Shrinks blobMatchAt := by
  intro cs a rest h
  obtain ⟨ha, hrest, hlen⟩ := blobMatchAt_some h
  subst ha
  subst hrest
  have hsum := congrArg List.length (List.takeWhile_append_dropWhile isB64Char cs)
  rw [List.length_append] at hsum
  omega

/- ## The blob scan produces exactly the long maximal runs -/

theorem maximalRunsAux_congr (p : Char → Bool) :
    ∀ f₁ f₂ cs, cs.length ≤ f₁ → cs.length ≤ f₂ →
      maximalRunsAux p f₁ cs = maximalRunsAux p f₂ cs := by
  intro f₁
  induction f₁ with
  | zero =>
    intro f₂ cs h1 _
    have hcs : cs = [] := List.length_eq_zero.mp (Nat.le_zero.mp h1)
    subst hcs
    cases f₂ <;> rfl
  | succ f ih =>
    intro f₂ cs h1 h2
    cases cs with
    | nil => cases f₂ <;> rfl
    | cons c cs' =>
      cases f₂ with
      | zero => simp at h2
      | succ f₂' =>
        simp only [List.length_cons] at h1 h2
        simp only [maximalRunsAux]
        by_cases hp : p c = true
        · rw [if_pos hp, if_pos hp]
          have hd := length_dropWhile_le' p cs'
          rw [ih f₂' (cs'.dropWhile p) (by omega) (by omega)]
        · rw [if_neg hp, if_neg hp]
          exact ih f₂' cs' (by omega) (by omega)

theorem maximalRuns_cons_pos {p : Char → Bool} {c : Char} (cs : List Char)
    (hp : p c = true) :
    maximalRuns p (c :: cs) =
      (c :: cs.takeWhile p) :: maximalRuns p (cs.dropWhile p) := by
  unfold maximalRuns
  simp only [List.length_cons, maximalRunsAux, if_pos hp]
  rw [maximalRunsAux_congr p cs.length (cs.dropWhile p).length (cs.dropWhile p)
    (length_dropWhile_le' p cs) (le_refl _)]

theorem maximalRuns_cons_neg {p : Char → Bool} {c : Char} (cs : List Char)
    (hp : p c = false) :
    maximalRuns p (c :: cs) = maximalRuns p cs := by
  unfold maximalRuns
  simp only [List.length_cons, maximalRunsAux, hp]
  simp

theorem blobFind_skip_run :
    ∀ cs : List Char, ((cs.takeWhile isB64Char).length < 128) →
      reFindall blobMatchAt cs = reFindall blobMatchAt (cs.dropWhile isB64Char) := by
  intro cs
  induction cs with
  | nil => intro _; rfl
  | cons c cs' ih =>
    intro h
    by_cases hp : isB64Char c = true
    · rw [List.takeWhile_cons_of_pos hp, List.length_cons] at h
      rw [reFindall_cons_none (blobMatchAt_none (by
        rw [List.takeWhile_cons_of_pos hp, List.length_cons]; omega))]
      rw [List.dropWhile_cons_of_pos hp]
      exact ih (by omega)
    · rw [List.dropWhile_cons_of_neg (by simp [hp])]

theorem blobFind_eq_runs_bounded :
    ∀ (N : Nat) (cs : List Char), cs.length ≤ N →
      reFindall blobMatchAt cs =
        (maximalRuns isB64Char cs).filter (fun run => 128 ≤ run.length) := by
  intro N
  induction N with
  | zero =>
    intro cs h
    have hcs : cs = [] := List.length_eq_zero.mp (Nat.le_zero.mp h)
    subst hcs
    rfl
  | succ N ih =>
    intro cs h
    cases cs with
    | nil => rfl
    | cons c cs' =>
      simp only [List.length_cons] at h
      by_cases hp : isB64Char c = true
      · by_cases hlen : 128 ≤ (cs'.takeWhile isB64Char).length + 1
        · have hm : blobMatchAt (c :: cs') =
              some ((c :: cs').takeWhile isB64Char, (c :: cs').dropWhile isB64Char) := by
            unfold blobMatchAt
            dsimp only
            rw [if_pos (by rw [List.takeWhile_cons_of_pos hp, List.length_cons]; omega)]
          rw [reFindall_cons_some blobMatchAt_shrinks hm]
          rw [maximalRuns_cons_pos cs' hp]
          rw [List.filter_cons_of_pos (by
            simp only [List.length_cons, decide_eq_true_eq]; omega)]
          rw [List.takeWhile_cons_of_pos hp, List.dropWhile_cons_of_pos hp]
          have hd := length_dropWhile_le' isB64Char cs'
          rw [ih (cs'.dropWhile isB64Char) (by omega)]
        · have hm := @blobMatchAt_none (c :: cs') (by
            rw [List.takeWhile_cons_of_pos hp, List.length_cons]; omega)
          rw [reFindall_cons_none hm]
          rw [maximalRuns_cons_pos cs' hp]
          rw [List.filter_cons_of_neg (by
            simp only [List.length_cons, decide_eq_true_eq]; omega)]
          rw [blobFind_skip_run cs' (by omega)]
          have hd := length_dropWhile_le' isB64Char cs'
          rw [ih (cs'.dropWhile isB64Char) (by omega)]
      · have hm := @blobMatchAt_none (c :: cs') (by
          rw [List.takeWhile_cons_of_neg (by simp [hp])]
          simp)
        rw [reFindall_cons_none hm]
        rw [maximalRuns_cons_neg cs' (by simpa using hp)]
        exact ih cs' (by omega)

theorem blobFind_eq_runs (cs : List Char) :
    reFindall blobMatchAt cs =
      (maximalRuns isB64Char cs).filter (fun run => 128 ≤ run.length) :=
  blobFind_eq_runs_bounded cs.length cs (le_refl _)

/- ## Projections of the file scanner and the walk -/

theorem relativeTo_append (root rel : List (List Char)) :
    relativeTo root (root ++ rel) = some rel :=
  dropPre_append root rel

theorem scanFile_none (root full : List (List Char)) (r : Report) :
    scanFile root full none r = r := rfl

theorem scanFile_files_scanned (root full : List (List Char))
    (content : Option (List Char)) (r : Report) :
    (scanFile root full content r).files_scanned = r.files_scanned := by
  cases content with
  | none => rfl
  | some text =>
    simp only [scanFile]
    cases hrel : relativeTo root full with
    | none => rfl
    | some rel => rfl

theorem scanFile_network (root full : List (List Char)) (text : List Char)
    (r : Report) :
    (scanFile root full (some text) r).network_endpoints =
      (reFindall urlMatchAt text).foldl addUnique r.network_endpoints := by
  simp only [scanFile]
  cases hrel : relativeTo root full with
  | none => rfl
  | some rel => rfl

theorem scanFile_env (root full : List (List Char)) (text : List Char)
    (r : Report) :
    (scanFile root full (some text) r).env_vars =
      (reFindall envMatchAt text).foldl addUnique r.env_vars := by
  simp only [scanFile]
  cases hrel : relativeTo root full with
  | none => rfl
  | some rel => rfl

theorem scanFile_blobs (root rel : List (List Char)) (text : List Char)
    (r : Report) :
    (scanFile root (root ++ rel) (some text) r).suspicious_blobs =
      r.suspicious_blobs ++
        (reFindall blobMatchAt text).map (fun b => (joinPath rel, b.length)) := by
  simp only [scanFile, relativeTo_append]

theorem scanFile_calls (root rel : List (List Char)) (text : List Char)
    (r : Report) :
    (scanFile root (root ++ rel) (some text) r).dangerous_calls =
      r.dangerous_calls ++
        (dangerous_fns.filter (fun fn => containsSub fn text)).map
          (fun fn => (joinPath rel, fn)) := by
  simp only [scanFile, relativeTo_append]

theorem auditStep_filtered {root : List (List Char)} {e : FSEntry} (r : Report)
    (h : isFiltered (root ++ e.parts) = true) :
    auditStep root r e = r := by
  simp [auditStep, h]

theorem auditStep_file {root : List (List Char)} {e : FSEntry} (r : Report)
    (h1 : isFiltered (root ++ e.parts) = false) (h2 : e.isFile = true) :
    auditStep root r e =
      scanFile root (root ++ e.parts) e.content
        { r with files_scanned := r.files_scanned + 1 } := by
  simp [auditStep, h1, h2]

theorem auditStep_dir {root : List (List Char)} {e : FSEntry} (r : Report)
    (h1 : isFiltered (root ++ e.parts) = false) (h2 : e.isFile = false) :
    auditStep root r e = r := by
  simp [auditStep, h1, h2]

theorem foldl_files_scanned (root : List (List Char)) :
    ∀ (es : List FSEntry) (r : Report),
      (es.foldl (auditStep root) r).files_scanned =
        r.files_scanned +
          (es.filter (fun e => !isFiltered (root ++ e.parts) && e.isFile)).length := by
  intro es
  induction es with
  | nil => intro r; simp
  | cons e es' ih =>
    intro r
    rw [List.foldl_cons]
    by_cases hf : isFiltered (root ++ e.parts) = true
    · rw [auditStep_filtered r hf, List.filter_cons_of_neg (by simp [hf]), ih]
    · rw [Bool.not_eq_true] at hf
      by_cases hfile : e.isFile = true
      · rw [auditStep_file r hf hfile,
          List.filter_cons_of_pos (by simp [hf, hfile]), ih,
          scanFile_files_scanned]
        simp only [List.length_cons]
        omega
      · rw [Bool.not_eq_true] at hfile
        rw [auditStep_dir r hf hfile,
          List.filter_cons_of_neg (by simp [hf, hfile]), ih]

theorem scanFile_blobs_norel (root full : List (List Char)) (text : List Char)
    (r : Report) (hrel : relativeTo root full = none) :
    (scanFile root full (some text) r).suspicious_blobs = r.suspicious_blobs := by
  simp only [scanFile, hrel]

theorem scanFile_calls_norel (root full : List (List Char)) (text : List Char)
    (r : Report) (hrel : relativeTo root full = none) :
    (scanFile root full (some text) r).dangerous_calls = r.dangerous_calls := by
  simp only [scanFile, hrel]

theorem scanFile_findings_congr (root full : List (List Char))
    (content : Option (List Char)) (r₁ r₂ : Report)
    (h1 : r₁.network_endpoints = r₂.network_endpoints)
    (h2 : r₁.env_vars = r₂.env_vars)
    (h3 : r₁.dangerous_calls = r₂.dangerous_calls)
    (h4 : r₁.suspicious_blobs = r₂.suspicious_blobs) :
    (scanFile root full content r₁).network_endpoints =
      (scanFile root full content r₂).network_endpoints ∧
    (scanFile root full content r₁).env_vars =
      (scanFile root full content r₂).env_vars ∧
    (scanFile root full content r₁).dangerous_calls =
      (scanFile root full content r₂).dangerous_calls ∧
    (scanFile root full content r₁).suspicious_blobs =
      (scanFile root full content r₂).suspicious_blobs := by
  cases content with
  | none => exact ⟨h1, h2, h3, h4⟩
  | some text =>
    refine ⟨?_, ?_, ?_, ?_⟩
    · rw [scanFile_network, scanFile_network, h1]
    · rw [scanFile_env, scanFile_env, h2]
    · cases hrel : relativeTo root full with
      | none =>
        rw [scanFile_calls_norel root full text r₁ hrel,
          scanFile_calls_norel root full text r₂ hrel, h3]
      | some rel =>
        have hfull : full = root ++ rel := dropPre_eq_some hrel
        subst hfull
        rw [scanFile_calls, scanFile_calls, h3]
    · cases hrel : relativeTo root full with
      | none =>
        rw [scanFile_blobs_norel root full text r₁ hrel,
          scanFile_blobs_norel root full text r₂ hrel, h4]
      | some rel =>
        have hfull : full = root ++ rel := dropPre_eq_some hrel
        subst hfull
        rw [scanFile_blobs, scanFile_blobs, h4]

theorem foldl_findings_congr (root : List (List Char)) :
    ∀ (es : List FSEntry) (r₁ r₂ : Report),
      r₁.network_endpoints = r₂.network_endpoints →
      r₁.env_vars = r₂.env_vars →
      r₁.dangerous_calls = r₂.dangerous_calls →
      r₁.suspicious_blobs = r₂.suspicious_blobs →
      (es.foldl (auditStep root) r₁).network_endpoints =
        (es.foldl (auditStep root) r₂).network_endpoints ∧
      (es.foldl (auditStep root) r₁).env_vars =
        (es.foldl (auditStep root) r₂).env_vars ∧
      (es.foldl (auditStep root) r₁).dangerous_calls =
        (es.foldl (auditStep root) r₂).dangerous_calls ∧
      (es.foldl (auditStep root) r₁).suspicious_blobs =
        (es.foldl (auditStep root) r₂).suspicious_blobs ∧
      (es.foldl (auditStep root) r₁).files_scanned + r₂.files_scanned =
        (es.foldl (auditStep root) r₂).files_scanned + r₁.files_scanned := by
  intro es
  induction es with
  | nil =>
    intro r₁ r₂ h1 h2 h3 h4
    simp only [List.foldl_nil]
    exact ⟨h1, h2, h3, h4, by omega⟩
  | cons e es' ih =>
    intro r₁ r₂ h1 h2 h3 h4
    rw [List.foldl_cons, List.foldl_cons]
    by_cases hf : isFiltered (root ++ e.parts) = true
    · rw [auditStep_filtered r₁ hf, auditStep_filtered r₂ hf]
      exact ih r₁ r₂ h1 h2 h3 h4
    · rw [Bool.not_eq_true] at hf
      by_cases hfile : e.isFile = true
      · rw [auditStep_file r₁ hf hfile, auditStep_file r₂ hf hfile]
        obtain ⟨g1, g2, g3, g4⟩ :=
          scanFile_findings_congr root (root ++ e.parts) e.content
            { r₁ with files_scanned := r₁.files_scanned + 1 }
            { r₂ with files_scanned := r₂.files_scanned + 1 } h1 h2 h3 h4
        obtain ⟨j1, j2, j3, j4, j5⟩ := ih _ _ g1 g2 g3 g4
        refine ⟨j1, j2, j3, j4, ?_⟩
        rw [scanFile_files_scanned, scanFile_files_scanned] at j5
        simp only at j5 ⊢
        omega
      · rw [Bool.not_eq_true] at hfile
        rw [auditStep_dir r₁ hf hfile, auditStep_dir r₂ hf hfile]
        exact ih r₁ r₂ h1 h2 h3 h4

/- ## Set model: duplicates and membership -/

theorem addUnique_nodup {l : List (List Char)} (s : List Char) (h : l.Nodup) :
    (addUnique l s).Nodup := by
  unfold addUnique
  by_cases hs : s ∈ l
  · rw [if_pos hs]; exact h
  · rw [if_neg hs, ← List.concat_eq_append]
    exact List.Nodup.concat hs h

theorem foldl_addUnique_nodup :
    ∀ (xs : List (List Char)) (l : List (List Char)), l.Nodup →
      (xs.foldl addUnique l).Nodup := by
  intro xs
  induction xs with
  | nil => intro l h; exact h
  | cons x xs' ih => intro l h; exact ih (addUnique l x) (addUnique_nodup x h)

theorem mem_addUnique_of_mem {l : List (List Char)} {s : List Char} (x : List Char)
    (h : s ∈ l) : s ∈ addUnique l x := by
  unfold addUnique
  by_cases hx : x ∈ l
  · rw [if_pos hx]; exact h
  · rw [if_neg hx]; exact List.mem_append_left _ h

theorem foldl_addUnique_mem_mono :
    ∀ (xs : List (List Char)) {l : List (List Char)} {s : List Char}, s ∈ l →
      s ∈ xs.foldl addUnique l := by
  intro xs
  induction xs with
  | nil => intro l s h; exact h
  | cons x xs' ih => intro l s h; exact ih (mem_addUnique_of_mem x h)

theorem foldl_addUnique_mem_of :
    ∀ (xs : List (List Char)) (l : List (List Char)) {s : List Char}, s ∈ xs →
      s ∈ xs.foldl addUnique l := by
  intro xs
  induction xs with
  | nil => intro l s h; cases h
  | cons x xs' ih =>
    intro l s h
    rw [List.mem_cons] at h
    cases h with
    | inl hs =>
      subst hs
      refine foldl_addUnique_mem_mono xs' ?_
      unfold addUnique
      by_cases hx : s ∈ l
      · rw [if_pos hx]; exact hx
      · rw [if_neg hx]; exact List.mem_append_right _ (by simp)
    | inr hs => exact ih (addUnique l x) hs

theorem foldl_sets_nodup (root : List (List Char)) :
    ∀ (es : List FSEntry) (r : Report),
      r.network_endpoints.Nodup → r.env_vars.Nodup →
      (es.foldl (auditStep root) r).network_endpoints.Nodup ∧
      (es.foldl (auditStep root) r).env_vars.Nodup := by
  intro es
  induction es with
  | nil => intro r h1 h2; exact ⟨h1, h2⟩
  | cons e es' ih =>
    intro r h1 h2
    rw [List.foldl_cons]
    by_cases hf : isFiltered (root ++ e.parts) = true
    · rw [auditStep_filtered r hf]; exact ih r h1 h2
    · rw [Bool.not_eq_true] at hf
      by_cases hfile : e.isFile = true
      · rw [auditStep_file r hf hfile]
        refine ih _ ?_ ?_
        · cases hc : e.content with
          | none => exact h1
          | some text =>
            rw [scanFile_network]
            exact foldl_addUnique_nodup _ _ h1
        · cases hc : e.content with
          | none => exact h2
          | some text =>
            rw [scanFile_env]
            exact foldl_addUnique_nodup _ _ h2
      · rw [Bool.not_eq_true] at hfile
        rw [auditStep_dir r hf hfile]
        exact ih r h1 h2

theorem sortLC_sorted (l : List (List Char)) :
    (sortLC l).Sorted (fun a b => a ≤ b) :=
  List.sorted_insertionSort _ l

theorem sortLC_perm (l : List (List Char)) : (sortLC l).Perm l :=
  List.perm_insertionSort _ l

theorem sortLC_nodup {l : List (List Char)} (h : l.Nodup) : (sortLC l).Nodup :=
  (sortLC_perm l).nodup_iff.mpr h

/- ## Removal of filtered entries, and findings of the walk -/

theorem foldl_filter_removal (root : List (List Char)) :
    ∀ (es : List FSEntry) (r : Report),
      es.foldl (auditStep root) r =
        (es.filter (fun e => !isFiltered (root ++ e.parts))).foldl
          (auditStep root) r := by
  intro es
  induction es with
  | nil => intro r; rfl
  | cons e es' ih =>
    intro r
    rw [List.foldl_cons]
    by_cases hf : isFiltered (root ++ e.parts) = true
    · rw [auditStep_filtered r hf, List.filter_cons_of_neg (by simp [hf])]
      exact ih r
    · rw [List.filter_cons_of_pos (by simp [hf]), List.foldl_cons]
      exact ih _

theorem isFiltered_iff (parts : List (List Char)) :
    isFiltered parts = true ↔
      ∃ p ∈ parts, p.head? = some '.' ∨ p = "node_modules".toList ∨
        p = "venv".toList := by
  unfold isFiltered
  simp only [Bool.or_eq_true, List.any_eq_true, beq_iff_eq,
    List.contains_eq_any_beq]
  constructor
  · rintro ((⟨p, hp, hb⟩ | ⟨p, hp, hb⟩) | ⟨p, hp, hb⟩)
    · exact ⟨p, hp, Or.inl hb⟩
    · exact ⟨p, hp, Or.inr (Or.inl hb.symm)⟩
    · exact ⟨p, hp, Or.inr (Or.inr hb.symm)⟩
  · rintro ⟨p, hp, hb | hb | hb⟩
    · exact Or.inl (Or.inl ⟨p, hp, hb⟩)
    · exact Or.inl (Or.inr ⟨p, hp, hb.symm⟩)
    · exact Or.inr ⟨p, hp, hb.symm⟩

theorem isFiltered_mono {root : List (List Char)} (q : List (List Char))
    (h : isFiltered root = true) : isFiltered (root ++ q) = true := by
  rw [isFiltered_iff] at h ⊢
  obtain ⟨p, hp, hbad⟩ := h
  exact ⟨p, List.mem_append_left q hp, hbad⟩

theorem foldl_all_filtered (root : List (List Char))
    (hroot : isFiltered root = true) :
    ∀ (es : List FSEntry) (r : Report), es.foldl (auditStep root) r = r := by
  intro es
  induction es with
  | nil => intro r; rfl
  | cons e es' ih =>
    intro r
    rw [List.foldl_cons, auditStep_filtered r (isFiltered_mono e.parts hroot)]
    exact ih r

theorem joinPath_head {parts : List (List Char)} (hne : parts ≠ [])
    (hcomp : ∀ p ∈ parts, p ≠ []) :
    (joinPath parts).head? = (parts.head hne).head? := by
  cases parts with
  | nil => exact absurd rfl hne
  | cons p ps =>
    cases ps with
    | nil => rfl
    | cons q qs =>
      show (p ++ '/' :: joinPath (q :: qs)).head? = p.head?
      cases p with
      | nil => exact absurd rfl (hcomp [] (by simp))
      | cons c cp => rfl

theorem foldl_paths_sound (root : List (List Char)) (G : List Char → Prop) :
    ∀ (es : List FSEntry) (r : Report),
      (∀ e ∈ es, G (joinPath e.parts)) →
      (∀ fc ∈ r.dangerous_calls, G fc.1) →
      (∀ fb ∈ r.suspicious_blobs, G fb.1) →
      (∀ fc ∈ (es.foldl (auditStep root) r).dangerous_calls, G fc.1) ∧
      (∀ fb ∈ (es.foldl (auditStep root) r).suspicious_blobs, G fb.1) := by
  intro es
  induction es with
  | nil => intro r _ h1 h2; exact ⟨h1, h2⟩
  | cons e es' ih =>
    intro r hes h1 h2
    rw [List.foldl_cons]
    by_cases hf : isFiltered (root ++ e.parts) = true
    · rw [auditStep_filtered r hf]
      exact ih r (fun e' he' => hes e' (by simp [he'])) h1 h2
    · rw [Bool.not_eq_true] at hf
      by_cases hfile : e.isFile = true
      · rw [auditStep_file r hf hfile]
        refine ih _ (fun e' he' => hes e' (by simp [he'])) ?_ ?_
        · cases hc : e.content with
          | none => exact h1
          | some text =>
            rw [scanFile_calls]
            intro fc hfc
            rw [List.mem_append] at hfc
            cases hfc with
            | inl hmem => exact h1 fc hmem
            | inr hmem =>
              obtain ⟨fn, _, hfn⟩ := List.mem_map.mp hmem
              rw [← hfn]
              exact hes e (by simp)
        · cases hc : e.content with
          | none => exact h2
          | some text =>
            rw [scanFile_blobs]
            intro fb hfb
            rw [List.mem_append] at hfb
            cases hfb with
            | inl hmem => exact h2 fb hmem
            | inr hmem =>
              obtain ⟨b, _, hb⟩ := List.mem_map.mp hmem
              rw [← hb]
              exact hes e (by simp)
      · rw [Bool.not_eq_true] at hfile
        rw [auditStep_dir r hf hfile]
        exact ih r (fun e' he' => hes e' (by simp [he'])) h1 h2

/- ## Substring containment characterised -/

theorem dropPre_isSome_iff {sub cs : List Char} :
    (dropPre sub cs).isSome = true ↔ ∃ v, cs = sub ++ v := by
  constructor
  · intro h
    cases hd : dropPre sub cs with
    | none => rw [hd] at h; cases h
    | some r => exact ⟨r, dropPre_eq_some hd⟩
  · rintro ⟨v, rfl⟩
    rw [dropPre_append]
    rfl

theorem containsSub_iff (sub : List Char) :
    ∀ text : List Char,
      containsSub sub text = true ↔ ∃ u v, text = u ++ sub ++ v := by
  intro text
  induction text with
  | nil =>
    unfold containsSub
    constructor
    · intro h
      have hsub : sub = [] := List.isEmpty_iff.mp h
      exact ⟨[], [], by simp [hsub]⟩
    · rintro ⟨u, v, huv⟩
      have : u = [] ∧ sub = [] ∧ v = [] := by
        constructor
        · cases u with
          | nil => rfl
          | cons a u' => simp at huv
        · constructor
          · cases sub with
            | nil => rfl
            | cons a s' =>
              cases u <;> simp at huv
          · cases v with
            | nil => rfl
            | cons a v' =>
              cases u <;> cases sub <;> simp at huv
      rw [this.2.1]
      rfl
  | cons c cs ih =>
    unfold containsSub
    rw [Bool.or_eq_true, dropPre_isSome_iff, ih]
    constructor
    · rintro (⟨v, hv⟩ | ⟨u, v, huv⟩)
      · exact ⟨[], v, by simp [hv]⟩
      · exact ⟨c :: u, v, by simp [huv]⟩
    · rintro ⟨u, v, huv⟩
      cases u with
      | nil =>
        refine Or.inl ⟨v, ?_⟩
        simpa using huv
      | cons a u' =>
        rw [List.cons_append, List.cons_append, List.cons.injEq] at huv
        exact Or.inr ⟨u', v, huv.2⟩

/- ## Claim theorems -/

/-- Claim C10: if any component of the resolved absolute root path itself starts
with a dot or is literally named `node_modules` or `venv`, then every enumerated
entry is filtered out (the filter tests the full component tuple, which begins
with the root's components), so `audit` returns `files_scanned = 0` and all four
finding fields empty, regardless of the tree's contents. -/
theorem claim_C10 (root : List (List Char)) (entries : List FSEntry)
    (hroot : ∃ p ∈ root, p.head? = some '.' ∨ p = "node_modules".toList ∨
      p = "venv".toList) :
    (audit root entries).files_scanned = 0 ∧
    (audit root entries).network_endpoints = [] ∧
    (audit root entries).env_vars = [] ∧
    (audit root entries).dangerous_calls = [] ∧
    (audit root entries).suspicious_blobs = [] := by
  have hfil : isFiltered root = true := (isFiltered_iff root).mpr hroot
  have h := foldl_all_filtered root hfil entries emptyReport
  simp only [audit]
  rw [h]
  exact ⟨rfl, rfl, rfl, rfl, rfl⟩

/-- Witness for C10 at a concrete hidden-rooted tree containing a file full of
findings: the report is nevertheless empty. -/
theorem claim_C10_witness :
    (audit [".hidden".toList, "repo".toList]
        [⟨["a.py".toList], true, some "eval(x) https://a.b".toList⟩]).files_scanned
        = 0 ∧
    (audit [".hidden".toList, "repo".toList]
        [⟨["a.py".toList], true,
          some "eval(x) https://a.b".toList⟩]).network_endpoints = [] ∧
    (audit [".hidden".toList, "repo".toList]
        [⟨["a.py".toList], true, some "eval(x) https://a.b".toList⟩]).env_vars
        = [] ∧
    (audit [".hidden".toList, "repo".toList]
        [⟨["a.py".toList], true,
          some "eval(x) https://a.b".toList⟩]).dangerous_calls = [] ∧
    (audit [".hidden".toList, "repo".toList]
        [⟨["a.py".toList], true,
          some "eval(x) https://a.b".toList⟩]).suspicious_blobs = [] :=
  claim_C10 [".hidden".toList, "repo".toList]
    [⟨["a.py".toList], true, some "eval(x) https://a.b".toList⟩]
    ⟨".hidden".toList, by simp, Or.inl (by decide)⟩

/-- Claim C7: the path filter excludes exactly the paths containing a component
that starts with a dot or equals `node_modules` or `venv` literally; a component
such as `my.venv` is not excluded; and excluded entries contribute nothing to the
report -- removing them from the walk leaves the audit result unchanged. -/
theorem claim_C7 :
    (∀ parts : List (List Char),
      isFiltered parts = true ↔
        ∃ p ∈ parts, p.head? = some '.' ∨ p = "node_modules".toList ∨
          p = "venv".toList) ∧
    isFiltered ["src".toList, "my.venv".toList] = false ∧
    (∀ (root : List (List Char)) (entries : List FSEntry),
      audit root entries =
        audit root (entries.filter (fun e => !isFiltered (root ++ e.parts)))) := by
  refine ⟨isFiltered_iff, by decide, ?_⟩
  intro root entries
  simp only [audit]
  rw [foldl_filter_removal root entries emptyReport]

/-- Claim C9: in the finalized report the endpoint and env-var sequences are
duplicate-free and sorted ascending with respect to the (case-sensitive,
character-code lexicographic) order on strings. -/
theorem claim_C9 (root : List (List Char)) (entries : List FSEntry) :
    (audit root entries).network_endpoints.Nodup ∧
    (audit root entries).env_vars.Nodup ∧
    List.Sorted (fun a b => a ≤ b) (audit root entries).network_endpoints ∧
    List.Sorted (fun a b => a ≤ b) (audit root entries).env_vars := by
  obtain ⟨h1, h2⟩ := foldl_sets_nodup root entries emptyReport
    List.nodup_nil List.nodup_nil
  exact ⟨sortLC_nodup h1, sortLC_nodup h2, sortLC_sorted _, sortLC_sorted _⟩

/-- Helper: in a duplicate-free list, the entries whose value is a given member
`fn` and pass a filter number one when `fn` passes and zero otherwise. -/
theorem filter_eq_count_helper :
    ∀ (l : List (List Char)) (q : List Char → Bool) (fn : List Char),
      l.Nodup → fn ∈ l →
      (l.filter (fun g => decide (g = fn) && q g)).length =
        if q fn = true then 1 else 0 := by
  intro l
  induction l with
  | nil => intro q fn _ hmem; cases hmem
  | cons a l' ih =>
    intro q fn hnd hmem
    obtain ⟨hna, hnd'⟩ := List.nodup_cons.mp hnd
    rw [List.mem_cons] at hmem
    cases hmem with
    | inl hfa =>
      subst hfa
      have hrest : l'.filter (fun g => decide (g = fn) && q g) = [] := by
        rw [List.filter_eq_nil_iff]
        intro g hg
        simp only [Bool.and_eq_true, decide_eq_true_eq, not_and]
        rintro rfl
        exact absurd hg hna
      by_cases hq : q fn = true
      · rw [if_pos hq, List.filter_cons_of_pos (by simp [hq]), hrest]
        rfl
      · rw [if_neg hq, List.filter_cons_of_neg (by simp [hq]), hrest]
        rfl
    | inr hfl =>
      have hne : a ≠ fn := fun hc => hna (hc ▸ hfl)
      rw [List.filter_cons_of_neg (by simp [hne])]
      exact ih q fn hnd' hfl

/-- Claim C4: for a scanned file, each of the eight fixed signatures contributes
exactly one `dangerous_calls` entry when it occurs as a substring of the file's
text (regardless of how many occurrences) and none otherwise, and the entries
appear in the fixed declaration order of the signature list.  `containsSub fn
text` is substring occurrence: the second conjunct shows it holds exactly when
the text decomposes around the signature. -/
theorem claim_C4 (root rel : List (List Char)) (text : List Char) (r : Report) :
    ((scanFile root (root ++ rel) (some text) r).dangerous_calls =
      r.dangerous_calls ++
        (dangerous_fns.filter (fun fn => containsSub fn text)).map
          (fun fn => (joinPath rel, fn))) ∧
    (∀ fn, containsSub fn text = true ↔ ∃ u v, text = u ++ fn ++ v) ∧
    ∀ fn ∈ dangerous_fns,
      (((dangerous_fns.filter (fun fn => containsSub fn text)).map
          (fun fn => (joinPath rel, fn))).filter (fun e => e.2 = fn)).length =
        if containsSub fn text = true then 1 else 0 := by
  refine ⟨scanFile_calls root rel text r, fun fn => containsSub_iff fn text, ?_⟩
  intro fn hfn
  rw [List.filter_map, List.length_map, List.filter_filter]
  exact filter_eq_count_helper dangerous_fns (fun g => containsSub g text) fn
    (by decide) hfn

/-- Witness for C4: a file whose text contains `eval(` twice and `exec(` never
yields exactly one entry for `eval(` and none for `exec(`. -/
theorem claim_C4_witness :
    (((dangerous_fns.filter
        (fun fn => containsSub fn "eval(a); eval(b)".toList)).map
        (fun fn => (joinPath ["a.js".toList], fn))).filter
        (fun e => e.2 = "eval(".toList)).length = 1 ∧
    (((dangerous_fns.filter
        (fun fn => containsSub fn "eval(a); eval(b)".toList)).map
        (fun fn => (joinPath ["a.js".toList], fn))).filter
        (fun e => e.2 = "exec(".toList)).length = 0 := by
  constructor
  · have h := (claim_C4 [] ["a.js".toList] "eval(a); eval(b)".toList
      emptyReport).2.2 "eval(".toList (by decide)
    rw [h]
    decide
  · have h := (claim_C4 [] ["a.js".toList] "eval(a); eval(b)".toList
      emptyReport).2.2 "exec(".toList (by decide)
    rw [h]
    decide

/-- Claim C5: for a scanned file, the `suspicious_blobs` entries contributed are
exactly one entry per maximal run of base64-alphabet characters of length at
least 128, carrying the run's length; shorter maximal runs contribute nothing. -/
theorem claim_C5 (root rel : List (List Char)) (text : List Char) (r : Report) :
    (scanFile root (root ++ rel) (some text) r).suspicious_blobs =
      r.suspicious_blobs ++
        ((maximalRuns isB64Char text).filter (fun run => 128 ≤ run.length)).map
          (fun run => (joinPath rel, run.length)) := by
  rw [scanFile_blobs, blobFind_eq_runs]

/-- Counterexample to claim C1 as stated: a tree with a single enumerated regular,
non-filtered file whose read fails.  The claim says such a file does not count
toward `files_scanned`, which would make the count 0 (there are no readable
files); the code increments the counter before attempting the read, so the count
is 1. -/
theorem claim_C1_counterexample :
    (audit ["/".toList, "r".toList]
        [⟨["secrets.txt".toList], true, none⟩]).files_scanned ≠
      ([(⟨["secrets.txt".toList], true, none⟩ : FSEntry)].filter
          (fun e => !isFiltered (["/".toList, "r".toList] ++ e.parts) &&
            e.isFile && e.content.isSome)).length := by
  decide

/-- Claim C1, amended: `files_scanned` equals the number of enumerated regular,
non-filtered files, whether or not their contents could be read (the counter is
incremented before the read is attempted); a file whose open or read fails still
contributes no findings and does not abort the walk -- the report on a tree with
such a file is the report on the same tree without it, with `files_scanned` one
larger. -/
theorem claim_C1_amended :
    (∀ (root : List (List Char)) (entries : List FSEntry),
      (audit root entries).files_scanned =
        (entries.filter
          (fun e => !isFiltered (root ++ e.parts) && e.isFile)).length) ∧
    ∀ (root : List (List Char)) (pre post : List FSEntry) (e : FSEntry),
      isFiltered (root ++ e.parts) = false → e.isFile = true →
      e.content = none →
      (audit root (pre ++ e :: post)).files_scanned =
        (audit root (pre ++ post)).files_scanned + 1 ∧
      (audit root (pre ++ e :: post)).network_endpoints =
        (audit root (pre ++ post)).network_endpoints ∧
      (audit root (pre ++ e :: post)).env_vars =
        (audit root (pre ++ post)).env_vars ∧
      (audit root (pre ++ e :: post)).dangerous_calls =
        (audit root (pre ++ post)).dangerous_calls ∧
      (audit root (pre ++ e :: post)).suspicious_blobs =
        (audit root (pre ++ post)).suspicious_blobs := by
  constructor
  · intro root entries
    have h := foldl_files_scanned root entries emptyReport
    show (entries.foldl (auditStep root) emptyReport).files_scanned = _
    rw [h]
    simp [emptyReport]
  · intro root pre post e hf hfile hc
    have hsplit1 : (pre ++ e :: post).foldl (auditStep root) emptyReport =
        post.foldl (auditStep root)
          (auditStep root (pre.foldl (auditStep root) emptyReport) e) := by
      rw [List.foldl_append, List.foldl_cons]
    have hsplit2 : (pre ++ post).foldl (auditStep root) emptyReport =
        post.foldl (auditStep root) (pre.foldl (auditStep root) emptyReport) := by
      rw [List.foldl_append]
    set A := pre.foldl (auditStep root) emptyReport with hA
    have hstep : auditStep root A e = { A with files_scanned := A.files_scanned + 1 } := by
      rw [auditStep_file A hf hfile, hc, scanFile_none]
    obtain ⟨j1, j2, j3, j4, j5⟩ :=
      foldl_findings_congr root post
        { A with files_scanned := A.files_scanned + 1 } A rfl rfl rfl rfl
    refine ⟨?_, ?_, ?_, ?_, ?_⟩
    · show ((pre ++ e :: post).foldl (auditStep root) emptyReport).files_scanned =
        ((pre ++ post).foldl (auditStep root) emptyReport).files_scanned + 1
      rw [hsplit1, hsplit2, hstep]
      simp only at j5
      omega
    · show sortLC ((pre ++ e :: post).foldl (auditStep root)
          emptyReport).network_endpoints =
        sortLC ((pre ++ post).foldl (auditStep root) emptyReport).network_endpoints
      rw [hsplit1, hsplit2, hstep, j1]
    · show sortLC ((pre ++ e :: post).foldl (auditStep root) emptyReport).env_vars =
        sortLC ((pre ++ post).foldl (auditStep root) emptyReport).env_vars
      rw [hsplit1, hsplit2, hstep, j2]
    · show ((pre ++ e :: post).foldl (auditStep root) emptyReport).dangerous_calls =
        ((pre ++ post).foldl (auditStep root) emptyReport).dangerous_calls
      rw [hsplit1, hsplit2, hstep, j3]
    · show ((pre ++ e :: post).foldl (auditStep root) emptyReport).suspicious_blobs =
        ((pre ++ post).foldl (auditStep root) emptyReport).suspicious_blobs
      rw [hsplit1, hsplit2, hstep, j4]

/-- Witness for the amended C1 at a concrete tree: one readable file and one
unreadable file; the count is 2 and the unreadable file adds no findings. -/
theorem claim_C1_amended_witness :
    (audit ["r".toList]
        [⟨["a.py".toList], true, some "x = eval(input())".toList⟩,
         ⟨["broken.bin".toList], true, none⟩]).files_scanned =
      (audit ["r".toList]
        [⟨["a.py".toList], true, some "x = eval(input())".toList⟩]).files_scanned
        + 1 ∧
    (audit ["r".toList]
        [⟨["a.py".toList], true, some "x = eval(input())".toList⟩,
         ⟨["broken.bin".toList], true, none⟩]).dangerous_calls =
      (audit ["r".toList]
        [⟨["a.py".toList], true,
          some "x = eval(input())".toList⟩]).dangerous_calls := by
  have h := claim_C1_amended.2 ["r".toList]
    [⟨["a.py".toList], true, some "x = eval(input())".toList⟩] []
    ⟨["broken.bin".toList], true, none⟩ (by decide) rfl rfl
  exact ⟨h.1, h.2.2.2.1⟩

/-- Claim C8: every `file` field in `dangerous_calls` and `suspicious_blobs` is
the root-relative path of one of the enumerated entries, joined with `/`, and is
never absolute (does not begin with the path separator), for any root --
relative or absolute roots alike resolve to the component list the audit is run
with.  The hypotheses state that real path components are non-empty and contain
no separator at their head. -/
theorem claim_C8 (root : List (List Char)) (entries : List FSEntry)
    (hcomp : ∀ e ∈ entries, e.parts ≠ [] ∧ ∀ p ∈ e.parts, p ≠ [] ∧
      p.head? ≠ some '/') :
    (∀ fc ∈ (audit root entries).dangerous_calls,
        (∃ e ∈ entries, fc.1 = joinPath e.parts) ∧ fc.1.head? ≠ some '/') ∧
    (∀ fb ∈ (audit root entries).suspicious_blobs,
        (∃ e ∈ entries, fb.1 = joinPath e.parts) ∧ fb.1.head? ≠ some '/') := by
  have hG : ∀ e ∈ entries,
      (∃ e' ∈ entries, joinPath e.parts = joinPath e'.parts) ∧
        (joinPath e.parts).head? ≠ some '/' := by
    intro e he
    obtain ⟨hne, hps⟩ := hcomp e he
    refine ⟨⟨e, he, rfl⟩, ?_⟩
    rw [joinPath_head hne (fun p hp => (hps p hp).1)]
    exact (hps _ (List.head_mem hne)).2
  have h := foldl_paths_sound root
    (fun f => (∃ e ∈ entries, f = joinPath e.parts) ∧ f.head? ≠ some '/')
    entries emptyReport hG (by intro fc hfc; cases hfc) (by intro fb hfb; cases hfb)
  exact h

/-- Witness for C8: a concrete two-component file path yields the relative,
separator-free `pkg/a.py` file field. -/
theorem claim_C8_witness :
    (∃ e ∈ [(⟨["pkg".toList, "a.py".toList], true,
        some "eval(x)".toList⟩ : FSEntry)],
      "pkg/a.py".toList = joinPath e.parts) ∧
    ("pkg/a.py".toList).head? ≠ some '/' :=
  (claim_C8 ["home".toList, "u".toList]
      [⟨["pkg".toList, "a.py".toList], true, some "eval(x)".toList⟩]
      (by decide)).1
    ("pkg/a.py".toList, "eval(".toList) (by decide)

/-- Claim C6: the URL detector matches `http` or `https`, then `://`, then a
maximal non-empty run of characters excluding whitespace and the delimiters
(double quote, single quote, backtick, parentheses, angle brackets): every match
decomposes as scheme ++ run with the remainder of the text starting at a
terminating character, and on the concrete text
`see https://example.com/path?x=1 and more` the scan yields exactly the endpoint
`https://example.com/path?x=1` with no trailing characters. -/
theorem claim_C6 :
    (∀ cs u rest : List Char, urlMatchAt cs = some (u, rest) →
      ∃ scheme run, (scheme = "https://".toList ∨ scheme = "http://".toList) ∧
        u = scheme ++ run ∧ run ≠ [] ∧ (∀ c ∈ run, isUrlStop c = false) ∧
        cs = u ++ rest ∧ (∀ c, rest.head? = some c → isUrlStop c = true)) ∧
    reFindall urlMatchAt "see https://example.com/path?x=1 and more".toList =
      ["https://example.com/path?x=1".toList] := by
  constructor
  · intro cs u rest h
    exact urlMatchAt_some h
  · decide

/-- Witness for C6: the general conjunct applied at a concrete match. -/
theorem claim_C6_witness :
    ∃ scheme run, (scheme = "https://".toList ∨ scheme = "http://".toList) ∧
      "https://a.b".toList = scheme ++ run ∧ run ≠ [] ∧
      (∀ c ∈ run, isUrlStop c = false) ∧
      "https://a.b c".toList = "https://a.b".toList ++ " c".toList ∧
      (∀ c, (" c".toList).head? = some c → isUrlStop c = true) :=
  claim_C6.1 "https://a.b c".toList "https://a.b".toList " c".toList (by decide)

/- ## The env-var scan finds an idiom occurrence anywhere in the text -/

theorem quote_not_env {c : Char} (h : isQuote c = true) : isEnvChar c = false := by
  unfold isQuote at h
  rcases Bool.or_eq_true_iff.mp h with h' | h'
  · rw [beq_iff_eq] at h'
    subst h'
    decide
  · rw [beq_iff_eq] at h'
    subst h'
    decide

theorem envShape_ne_nil {w n : List Char} (h : EnvShape w n) : w ≠ [] := by
  rcases h with h1 | ⟨q1, q2, _, _, h2 | h3⟩
  · subst h1
    intro hc
    rw [List.append_eq_nil] at hc
    exact absurd hc.1 (by decide)
  · subst h2
    intro hc
    rw [List.append_eq_nil] at hc
    exact absurd hc.2 (by simp)
  · subst h3
    intro hc
    rw [List.append_eq_nil] at hc
    exact absurd hc.2 (by simp)

theorem env_span_tail_no_p {w n : List Char} (hshape : EnvShape w n)
    (hnenv : ∀ c ∈ n, isEnvChar c = true) : 'p' ∉ w.drop 1 := by
  rcases hshape with h1 | ⟨q1, q2, hq1, hq2, h2 | h3⟩
  · subst h1
    intro hc
    rw [show ("process.env.".toList ++ n).drop 1 = "rocess.env.".toList ++ n
      from rfl] at hc
    rw [List.mem_append] at hc
    cases hc with
    | inl h => exact absurd h (by decide)
    | inr h => exact absurd (hnenv _ h) (by decide)
  · subst h2
    intro hc
    rw [show ("os.environ[".toList ++ q1 :: (n ++ [q2, ']'])).drop 1 =
      "s.environ[".toList ++ q1 :: (n ++ [q2, ']']) from rfl] at hc
    simp only [List.mem_append, List.mem_cons] at hc
    rcases hc with h | h | h
    · exact absurd h (by decide)
    · subst h
      exact absurd hq1 (by decide)
    · rcases h with h | h | h
      · exact absurd (hnenv _ h) (by decide)
      · subst h
        exact absurd hq2 (by decide)
      · rcases h with h | h
        · cases h
        · cases h
  · subst h3
    intro hc
    rw [show ("getenv(".toList ++ q1 :: (n ++ [q2, ')'])).drop 1 =
      "etenv(".toList ++ q1 :: (n ++ [q2, ')']) from rfl] at hc
    simp only [List.mem_append, List.mem_cons] at hc
    rcases hc with h | h | h
    · exact absurd h (by decide)
    · subst h
      exact absurd hq1 (by decide)
    · rcases h with h | h | h
      · exact absurd (hnenv _ h) (by decide)
      · subst h
        exact absurd hq2 (by decide)
      · rcases h with h | h
        · cases h
        · cases h

theorem env_span_tail_no_g {w n : List Char} (hshape : EnvShape w n)
    (hnenv : ∀ c ∈ n, isEnvChar c = true) : 'g' ∉ w.drop 1 := by
  rcases hshape with h1 | ⟨q1, q2, hq1, hq2, h2 | h3⟩
  · subst h1
    intro hc
    rw [show ("process.env.".toList ++ n).drop 1 = "rocess.env.".toList ++ n
      from rfl] at hc
    rw [List.mem_append] at hc
    cases hc with
    | inl h => exact absurd h (by decide)
    | inr h => exact absurd (hnenv _ h) (by decide)
  · subst h2
    intro hc
    rw [show ("os.environ[".toList ++ q1 :: (n ++ [q2, ']'])).drop 1 =
      "s.environ[".toList ++ q1 :: (n ++ [q2, ']']) from rfl] at hc
    simp only [List.mem_append, List.mem_cons] at hc
    rcases hc with h | h | h
    · exact absurd h (by decide)
    · subst h
      exact absurd hq1 (by decide)
    · rcases h with h | h | h
      · exact absurd (hnenv _ h) (by decide)
      · subst h
        exact absurd hq2 (by decide)
      · rcases h with h | h
        · cases h
        · cases h
  · subst h3
    intro hc
    rw [show ("getenv(".toList ++ q1 :: (n ++ [q2, ')'])).drop 1 =
      "etenv(".toList ++ q1 :: (n ++ [q2, ')']) from rfl] at hc
    simp only [List.mem_append, List.mem_cons] at hc
    rcases hc with h | h | h
    · exact absurd h (by decide)
    · subst h
      exact absurd hq1 (by decide)
    · rcases h with h | h | h
      · exact absurd (hnenv _ h) (by decide)
      · subst h
        exact absurd hq2 (by decide)
      · rcases h with h | h
        · cases h
        · cases h

theorem reFindall_head_mem {α : Type} {m : List Char → Option (α × List Char)}
    (hm : Shrinks m) {cs : List Char} {a : α} {rest : List Char}
    (h : m cs = some (a, rest)) : a ∈ reFindall m cs := by
  cases cs with
  | nil =>
    have := hm _ _ _ h
    simp at this
  | cons c cs' =>
    rw [reFindall_cons_some hm h]
    exact List.mem_cons_self a _

theorem split_match {w rest pre X : List Char}
    (heq : w ++ rest = pre ++ X) :
    (w.length ≤ pre.length ∧ ∃ u, pre = w ++ u ∧ rest = u ++ X) ∨
    (pre.length < w.length ∧ ∃ x, x ≠ [] ∧ w = pre ++ x ∧ x ++ rest = X) := by
  by_cases hle : w.length ≤ pre.length
  · left
    refine ⟨hle, ?_⟩
    have hw : w <+: pre := by
      have h1 : w <+: pre ++ X := ⟨rest, heq⟩
      exact List.prefix_of_prefix_length_le h1 (List.prefix_append pre X) hle
    obtain ⟨u, hu⟩ := hw
    refine ⟨u, hu.symm, ?_⟩
    rw [← hu, List.append_assoc] at heq
    exact List.append_cancel_left heq
  · right
    push_neg at hle
    refine ⟨hle, ?_⟩
    have hp : pre <+: w := by
      have h1 : pre <+: w ++ rest := ⟨X, heq.symm⟩
      exact List.prefix_of_prefix_length_le h1 (List.prefix_append w rest)
        (le_of_lt hle)
    obtain ⟨x, hx⟩ := hp
    refine ⟨x, ?_, hx.symm, ?_⟩
    · intro hxnil
      rw [hxnil, List.append_nil] at hx
      rw [hx] at hle
      exact lt_irrefl _ hle
    · rw [← hx, List.append_assoc] at heq
      exact List.append_cancel_left heq

theorem envMatchAt_idiom1 {name post : List Char}
    (hne : name ≠ []) (henv : ∀ c ∈ name, isEnvChar c = true)
    (hpost : ∀ c, post.head? = some c → isEnvChar c = false) :
    envMatchAt ("process.env.".toList ++ (name ++ post)) = some (name, post) := by
  obtain ⟨ht, hd⟩ := takeWhile_all_append henv hpost
  have hb1 : envBranch1 ("process.env.".toList ++ (name ++ post)) =
      some (name, post) := by
    simp only [envBranch1, dropPre_append]
    rw [ht, hd, if_neg (by simpa using hne)]
  unfold envMatchAt
  rw [hb1]

theorem envMatchAt_idiom2 {name post : List Char} {qa qb : Char}
    (hne : name ≠ []) (henv : ∀ c ∈ name, isEnvChar c = true)
    (hqa : isQuote qa = true) (hqb : isQuote qb = true) :
    envMatchAt ("os.environ[".toList ++ qa :: (name ++ qb :: ']' :: post)) =
      some (name, post) := by
  have hpost : ∀ c, (qb :: ']' :: post).head? = some c → isEnvChar c = false := by
    intro c hc
    rw [List.head?_cons, Option.some.injEq] at hc
    subst hc
    exact quote_not_env hqb
  obtain ⟨ht, hd⟩ := takeWhile_all_append henv hpost
  have hb1 : envBranch1 ("os.environ[".toList ++ qa :: (name ++ qb :: ']' :: post)) =
      none := by
    simp only [envBranch1]
    rw [show ("os.environ[".toList ++ qa :: (name ++ qb :: ']' :: post)) =
      'o' :: ("s.environ[".toList ++ qa :: (name ++ qb :: ']' :: post)) from rfl,
      show "process.env.".toList = 'p' :: "rocess.env.".toList from rfl,
      dropPre_cons_ne _ _ (by decide)]
  have hb2 : envBranch2 ("os.environ[".toList ++ qa :: (name ++ qb :: ']' :: post)) =
      some (name, post) := by
    simp only [envBranch2, dropPre_append]
    rw [if_pos hqa, ht, hd, if_neg (by simpa using hne)]
    dsimp only
    rw [if_pos (by rw [hqb]; rfl)]
  unfold envMatchAt
  rw [hb1, hb2]

theorem envMatchAt_idiom3 {name post : List Char} {qa qb : Char}
    (hne : name ≠ []) (henv : ∀ c ∈ name, isEnvChar c = true)
    (hqa : isQuote qa = true) (hqb : isQuote qb = true) :
    envMatchAt ("getenv(".toList ++ qa :: (name ++ qb :: ')' :: post)) =
      some (name, post) := by
  have hpost : ∀ c, (qb :: ')' :: post).head? = some c → isEnvChar c = false := by
    intro c hc
    rw [List.head?_cons, Option.some.injEq] at hc
    subst hc
    exact quote_not_env hqb
  obtain ⟨ht, hd⟩ := takeWhile_all_append henv hpost
  have hb1 : envBranch1 ("getenv(".toList ++ qa :: (name ++ qb :: ')' :: post)) =
      none := by
    simp only [envBranch1]
    rw [show ("getenv(".toList ++ qa :: (name ++ qb :: ')' :: post)) =
      'g' :: ("etenv(".toList ++ qa :: (name ++ qb :: ')' :: post)) from rfl,
      show "process.env.".toList = 'p' :: "rocess.env.".toList from rfl,
      dropPre_cons_ne _ _ (by decide)]
  have hb2 : envBranch2 ("getenv(".toList ++ qa :: (name ++ qb :: ')' :: post)) =
      none := by
    simp only [envBranch2]
    rw [show ("getenv(".toList ++ qa :: (name ++ qb :: ')' :: post)) =
      'g' :: ("etenv(".toList ++ qa :: (name ++ qb :: ')' :: post)) from rfl,
      show "os.environ[".toList = 'o' :: "s.environ[".toList from rfl,
      dropPre_cons_ne _ _ (by decide)]
  have hb3 : envBranch3 ("getenv(".toList ++ qa :: (name ++ qb :: ')' :: post)) =
      some (name, post) := by
    simp only [envBranch3, dropPre_append]
    rw [if_pos hqa, ht, hd, if_neg (by simpa using hne)]
    dsimp only
    rw [if_pos (by rw [hqb]; rfl)]
  unfold envMatchAt
  rw [hb1, hb2, hb3]

theorem env_no_cross_1 {w n pre x rest' name post : List Char}
    (hshape : EnvShape w n) (hnenv : ∀ c ∈ n, isEnvChar c = true)
    (hpre : pre ≠ []) (hxne : x ≠ []) (hw : w = pre ++ x)
    (hX : x ++ rest' = "process.env.".toList ++ (name ++ post)) : False := by
  cases x with
  | nil => exact hxne rfl
  | cons c x1 =>
    rw [show "process.env.".toList ++ (name ++ post) =
      'p' :: ("rocess.env.".toList ++ (name ++ post)) from rfl,
      List.cons_append, List.cons.injEq] at hX
    obtain ⟨hc, -⟩ := hX
    subst hc
    have hmem : 'p' ∈ w.drop 1 := by
      have hdrop : w.drop pre.length = 'p' :: x1 := by
        rw [hw]
        exact List.drop_left pre ('p' :: x1)
      have hsub : w.drop pre.length ⊆ w.drop 1 :=
        List.drop_subset_drop_left w (List.length_pos.mpr hpre)
      apply hsub
      rw [hdrop]
      exact List.mem_cons_self _ _
    exact env_span_tail_no_p hshape hnenv hmem

theorem env_no_cross_3 {w n pre x rest' name post : List Char} {qa qb : Char}
    (hshape : EnvShape w n) (hnenv : ∀ c ∈ n, isEnvChar c = true)
    (hpre : pre ≠ []) (hxne : x ≠ []) (hw : w = pre ++ x)
    (hX : x ++ rest' = "getenv(".toList ++ qa :: (name ++ qb :: ')' :: post)) :
    False := by
  cases x with
  | nil => exact hxne rfl
  | cons c x1 =>
    rw [show "getenv(".toList ++ qa :: (name ++ qb :: ')' :: post) =
      'g' :: ("etenv(".toList ++ qa :: (name ++ qb :: ')' :: post)) from rfl,
      List.cons_append, List.cons.injEq] at hX
    obtain ⟨hc, -⟩ := hX
    subst hc
    have hmem : 'g' ∈ w.drop 1 := by
      have hdrop : w.drop pre.length = 'g' :: x1 := by
        rw [hw]
        exact List.drop_left pre ('g' :: x1)
      have hsub : w.drop pre.length ⊆ w.drop 1 :=
        List.drop_subset_drop_left w (List.length_pos.mpr hpre)
      apply hsub
      rw [hdrop]
      exact List.mem_cons_self _ _
    exact env_span_tail_no_g hshape hnenv hmem

theorem env_cross_not_single_o {w n pre : List Char}
    (hshape : EnvShape w n)
    (hnenv : ∀ c ∈ n, isEnvChar c = true)
    (hw : w = pre ++ ['o']) : False := by
  have hlast : w.getLast? = some 'o' := by
    rw [hw]
    exact List.getLast?_concat pre
  rcases hshape with h1 | ⟨q1, q2, hq1, hq2, h2 | h3⟩
  · subst h1
    rw [List.getLast?_append] at hlast
    cases hg : n.getLast? with
    | none =>
      rw [hg] at hlast
      simp only [Option.none_or] at hlast
      exact absurd hlast (by decide)
    | some a =>
      rw [hg] at hlast
      simp only [Option.or_some, Option.some.injEq] at hlast
      subst hlast
      exact absurd (hnenv _ (List.mem_of_getLast?_eq_some hg)) (by decide)
  · subst h2
    rw [show "os.environ[".toList ++ q1 :: (n ++ [q2, ']']) =
      ("os.environ[".toList ++ q1 :: (n ++ [q2])) ++ [']'] from by simp] at hlast
    rw [List.getLast?_concat] at hlast
    exact absurd hlast (by decide)
  · subst h3
    rw [show "getenv(".toList ++ q1 :: (n ++ [q2, ')']) =
      ("getenv(".toList ++ q1 :: (n ++ [q2])) ++ [')'] from by simp] at hlast
    rw [List.getLast?_concat] at hlast
    exact absurd hlast (by decide)

theorem cross_os_core {lit z pre x2 : List Char}
    (heq : pre ++ 'o' :: 's' :: x2 = lit ++ z)
    (hpre : pre ≠ [])
    (htake : ∀ i, i < lit.length → 1 ≤ i → (lit.drop i).take 2 ≠ ['o', 's'])
    (hlast : lit.getLast? ≠ some 'o')
    (hzo : 'o' ∉ z) : False := by
  rcases split_match heq with ⟨hle, u, hu, hrest⟩ | ⟨hlt, x, hxne, hx, hX⟩
  · cases u with
    | nil =>
      rw [List.append_nil] at hu
      rw [List.nil_append] at hrest
      exact hzo (hrest ▸ List.mem_cons_self 'o' _)
    | cons d u' =>
      rw [List.cons_append, List.cons.injEq] at hrest
      obtain ⟨hd, hrest'⟩ := hrest
      subst hd
      cases u' with
      | nil =>
        have : lit.getLast? = some 'o' := by
          rw [hu]
          exact List.getLast?_concat pre
        exact hlast this
      | cons d2 u'' =>
        rw [List.cons_append, List.cons.injEq] at hrest'
        obtain ⟨hd2, -⟩ := hrest'
        subst hd2
        have hdrop : lit.drop pre.length = 'o' :: 's' :: u'' := by
          rw [hu]
          exact List.drop_left pre ('o' :: 's' :: u'')
        have hlen : pre.length < lit.length := by
          have hl := congrArg List.length hu
          simp only [List.length_append, List.length_cons] at hl
          omega
        have hone : 1 ≤ pre.length := List.length_pos.mpr hpre
        refine htake pre.length hlen hone ?_
        rw [hdrop]
        rfl
  · refine hzo ?_
    rw [← hX]
    exact List.mem_append_right x (List.mem_cons_self 'o' _)

theorem env_cross_os {w n pre x2 : List Char}
    (hshape : EnvShape w n) (hnenv : ∀ c ∈ n, isEnvChar c = true)
    (hpre : pre ≠ []) (hw : w = pre ++ 'o' :: 's' :: x2) : False := by
  rcases hshape with h1 | ⟨q1, q2, hq1, hq2, h2 | h3⟩
  · refine @cross_os_core "process.env.".toList n pre x2
      (by rw [← hw, h1]) hpre (by decide) (by decide) ?_
    intro hc
    exact absurd (hnenv _ hc) (by decide)
  · refine @cross_os_core "os.environ[".toList (q1 :: (n ++ [q2, ']'])) pre x2
      (by rw [← hw, h2]) hpre (by decide) (by decide) ?_
    intro hc
    rw [List.mem_cons] at hc
    rcases hc with hc | hc
    · rw [← hc] at hq1
      exact absurd hq1 (by decide)
    · rw [List.mem_append] at hc
      rcases hc with hc | hc
      · exact absurd (hnenv _ hc) (by decide)
      · simp only [List.mem_cons, List.not_mem_nil, or_false] at hc
        rcases hc with hc | hc
        · rw [← hc] at hq2
          exact absurd hq2 (by decide)
        · exact absurd hc (by decide)
  · refine @cross_os_core "getenv(".toList (q1 :: (n ++ [q2, ')'])) pre x2
      (by rw [← hw, h3]) hpre (by decide) (by decide) ?_
    intro hc
    rw [List.mem_cons] at hc
    rcases hc with hc | hc
    · rw [← hc] at hq1
      exact absurd hq1 (by decide)
    · rw [List.mem_append] at hc
      rcases hc with hc | hc
      · exact absurd (hnenv _ hc) (by decide)
      · simp only [List.mem_cons, List.not_mem_nil, or_false] at hc
        rcases hc with hc | hc
        · rw [← hc] at hq2
          exact absurd hq2 (by decide)
        · exact absurd hc (by decide)

theorem env_no_cross_2 {w n pre x rest' name post : List Char} {qa qb : Char}
    (hshape : EnvShape w n) (hnenv : ∀ c ∈ n, isEnvChar c = true)
    (hpre : pre ≠ []) (hxne : x ≠ []) (hw : w = pre ++ x)
    (hX : x ++ rest' = "os.environ[".toList ++ qa :: (name ++ qb :: ']' :: post)) :
    False := by
  cases x with
  | nil => exact hxne rfl
  | cons c x1 =>
    rw [show "os.environ[".toList ++ qa :: (name ++ qb :: ']' :: post) =
      'o' :: ("s.environ[".toList ++ qa :: (name ++ qb :: ']' :: post)) from rfl,
      List.cons_append, List.cons.injEq] at hX
    obtain ⟨hc, hX1⟩ := hX
    subst hc
    cases x1 with
    | nil => exact env_cross_not_single_o hshape hnenv hw
    | cons c2 x2 =>
      rw [show "s.environ[".toList ++ qa :: (name ++ qb :: ']' :: post) =
        's' :: (".environ[".toList ++ qa :: (name ++ qb :: ']' :: post)) from rfl,
        List.cons_append, List.cons.injEq] at hX1
      obtain ⟨hc2, -⟩ := hX1
      subst hc2
      exact env_cross_os hshape hnenv hpre hw

theorem envFind_idiom1_bounded :
    ∀ (N : Nat) (pre name post : List Char), pre.length ≤ N →
      name ≠ [] → (∀ c ∈ name, isEnvChar c = true) →
      (∀ c, post.head? = some c → isEnvChar c = false) →
      name ∈ reFindall envMatchAt
        (pre ++ ("process.env.".toList ++ (name ++ post))) := by
  intro N
  induction N with
  | zero =>
    intro pre name post hlen hne henv hpost
    have hp : pre = [] := List.length_eq_zero.mp (Nat.le_zero.mp hlen)
    subst hp
    rw [List.nil_append]
    exact reFindall_head_mem envMatchAt_shrinks (envMatchAt_idiom1 hne henv hpost)
  | succ N ih =>
    intro pre name post hlen hne henv hpost
    cases pre with
    | nil =>
      rw [List.nil_append]
      exact reFindall_head_mem envMatchAt_shrinks (envMatchAt_idiom1 hne henv hpost)
    | cons c pre' =>
      rw [List.cons_append]
      cases hm : envMatchAt
          (c :: (pre' ++ ("process.env.".toList ++ (name ++ post)))) with
      | none =>
        rw [reFindall_cons_none hm]
        refine ih pre' name post ?_ hne henv hpost
        simp only [List.length_cons] at hlen
        omega
      | some ar =>
        obtain ⟨a, rest⟩ := ar
        rw [reFindall_cons_some envMatchAt_shrinks hm]
        obtain ⟨hane, haenv, w, hcs, hshape⟩ := envMatchAt_shape hm
        have heq : w ++ rest =
            (c :: pre') ++ ("process.env.".toList ++ (name ++ post)) := by
          rw [← hcs, List.cons_append]
        rcases split_match heq with ⟨hle, u, hu, hrest⟩ | ⟨hlt, x, hxne, hx, hXX⟩
        · have hwne : w ≠ [] := envShape_ne_nil hshape
          have hlu : u.length ≤ N := by
            have h1 := congrArg List.length hu
            simp only [List.length_cons, List.length_append] at h1 hlen
            have h2 := List.length_pos.mpr hwne
            omega
          rw [hrest]
          exact List.mem_cons_of_mem a (ih u name post hlu hne henv hpost)
        · exact (env_no_cross_1 hshape haenv (by simp) hxne hx hXX).elim

theorem envFind_idiom2_bounded :
    ∀ (N : Nat) (pre name post : List Char) (qa qb : Char), pre.length ≤ N →
      name ≠ [] → (∀ c ∈ name, isEnvChar c = true) →
      isQuote qa = true → isQuote qb = true →
      name ∈ reFindall envMatchAt
        (pre ++ ("os.environ[".toList ++ qa :: (name ++ qb :: ']' :: post))) := by
  intro N
  induction N with
  | zero =>
    intro pre name post qa qb hlen hne henv hqa hqb
    have hp : pre = [] := List.length_eq_zero.mp (Nat.le_zero.mp hlen)
    subst hp
    rw [List.nil_append]
    exact reFindall_head_mem envMatchAt_shrinks (envMatchAt_idiom2 hne henv hqa hqb)
  | succ N ih =>
    intro pre name post qa qb hlen hne henv hqa hqb
    cases pre with
    | nil =>
      rw [List.nil_append]
      exact reFindall_head_mem envMatchAt_shrinks (envMatchAt_idiom2 hne henv hqa hqb)
    | cons c pre' =>
      rw [List.cons_append]
      cases hm : envMatchAt
          (c :: (pre' ++
            ("os.environ[".toList ++ qa :: (name ++ qb :: ']' :: post)))) with
      | none =>
        rw [reFindall_cons_none hm]
        refine ih pre' name post qa qb ?_ hne henv hqa hqb
        simp only [List.length_cons] at hlen
        omega
      | some ar =>
        obtain ⟨a, rest⟩ := ar
        rw [reFindall_cons_some envMatchAt_shrinks hm]
        obtain ⟨hane, haenv, w, hcs, hshape⟩ := envMatchAt_shape hm
        have heq : w ++ rest =
            (c :: pre') ++
              ("os.environ[".toList ++ qa :: (name ++ qb :: ']' :: post)) := by
          rw [← hcs, List.cons_append]
        rcases split_match heq with ⟨hle, u, hu, hrest⟩ | ⟨hlt, x, hxne, hx, hXX⟩
        · have hwne : w ≠ [] := envShape_ne_nil hshape
          have hlu : u.length ≤ N := by
            have h1 := congrArg List.length hu
            simp only [List.length_cons, List.length_append] at h1 hlen
            have h2 := List.length_pos.mpr hwne
            omega
          rw [hrest]
          exact List.mem_cons_of_mem a (ih u name post qa qb hlu hne henv hqa hqb)
        · exact (env_no_cross_2 hshape haenv (by simp) hxne hx hXX).elim

theorem envFind_idiom3_bounded :
    ∀ (N : Nat) (pre name post : List Char) (qa qb : Char), pre.length ≤ N →
      name ≠ [] → (∀ c ∈ name, isEnvChar c = true) →
      isQuote qa = true → isQuote qb = true →
      name ∈ reFindall envMatchAt
        (pre ++ ("getenv(".toList ++ qa :: (name ++ qb :: ')' :: post))) := by
  intro N
  induction N with
  | zero =>
    intro pre name post qa qb hlen hne henv hqa hqb
    have hp : pre = [] := List.length_eq_zero.mp (Nat.le_zero.mp hlen)
    subst hp
    rw [List.nil_append]
    exact reFindall_head_mem envMatchAt_shrinks (envMatchAt_idiom3 hne henv hqa hqb)
  | succ N ih =>
    intro pre name post qa qb hlen hne henv hqa hqb
    cases pre with
    | nil =>
      rw [List.nil_append]
      exact reFindall_head_mem envMatchAt_shrinks (envMatchAt_idiom3 hne henv hqa hqb)
    | cons c pre' =>
      rw [List.cons_append]
      cases hm : envMatchAt
          (c :: (pre' ++
            ("getenv(".toList ++ qa :: (name ++ qb :: ')' :: post)))) with
      | none =>
        rw [reFindall_cons_none hm]
        refine ih pre' name post qa qb ?_ hne henv hqa hqb
        simp only [List.length_cons] at hlen
        omega
      | some ar =>
        obtain ⟨a, rest⟩ := ar
        rw [reFindall_cons_some envMatchAt_shrinks hm]
        obtain ⟨hane, haenv, w, hcs, hshape⟩ := envMatchAt_shape hm
        have heq : w ++ rest =
            (c :: pre') ++
              ("getenv(".toList ++ qa :: (name ++ qb :: ')' :: post)) := by
          rw [← hcs, List.cons_append]
        rcases split_match heq with ⟨hle, u, hu, hrest⟩ | ⟨hlt, x, hxne, hx, hXX⟩
        · have hwne : w ≠ [] := envShape_ne_nil hshape
          have hlu : u.length ≤ N := by
            have h1 := congrArg List.length hu
            simp only [List.length_cons, List.length_append] at h1 hlen
            have h2 := List.length_pos.mpr hwne
            omega
          rw [hrest]
          exact List.mem_cons_of_mem a (ih u name post qa qb hlu hne henv hqa hqb)
        · exact (env_no_cross_3 hshape haenv (by simp) hxne hx hXX).elim

theorem mem_addUnique {l : List (List Char)} {x s : List Char}
    (h : s ∈ addUnique l x) : s ∈ l ∨ s = x := by
  unfold addUnique at h
  by_cases hx : x ∈ l
  · rw [if_pos hx] at h
    exact Or.inl h
  · rw [if_neg hx, List.mem_append] at h
    rcases h with h | h
    · exact Or.inl h
    · rw [List.mem_singleton] at h
      exact Or.inr h

theorem mem_foldl_addUnique :
    ∀ (xs l : List (List Char)) {s : List Char},
      s ∈ xs.foldl addUnique l → s ∈ l ∨ s ∈ xs := by
  intro xs
  induction xs with
  | nil => intro l s h; exact Or.inl h
  | cons x xs' ih =>
    intro l s h
    rcases ih (addUnique l x) h with h' | h'
    · rcases mem_addUnique h' with h'' | h''
      · exact Or.inl h''
      · exact Or.inr (by simp [h''])
    · exact Or.inr (List.mem_cons_of_mem x h')

/-- Counterexample to claim C3 as stated: the dotted-access idiom with a
namespace other than the literal `process` -- here `app.env.SECRET_TOKEN` --
matches nothing, so the uppercase name SECRET_TOKEN does not appear in
`env_vars`; the pattern's first alternative requires the namespace `process`. -/
theorem claim_C3_counterexample :
    (scanFile [] ["cfg.py".toList]
        (some "token = app.env.SECRET_TOKEN".toList) emptyReport).env_vars
      = [] := by
  decide

/-- Claim C3, amended: the dotted-access idiom is matched only for the literal
namespace `process`.  For every uppercase NAME over `[A-Z0-9_]`, a scanned file
whose text contains `process.env.NAME` (followed by a non-name character or the
end), `os.environ[<q>NAME<q>]`, or `getenv(<q>NAME<q>)` -- with each quote
either `'` or `"`, independently -- yields NAME as an element of `env_vars`; and
only captured names are added: every new `env_vars` element is a non-empty
string over `[A-Z0-9_]`, never the idiom text. -/
theorem claim_C3_amended :
    (∀ (root rel : List (List Char)) (r : Report) (pre name post : List Char),
      name ≠ [] → (∀ c ∈ name, isEnvChar c = true) →
      (∀ c, post.head? = some c → isEnvChar c = false) →
      name ∈ (scanFile root (root ++ rel)
        (some (pre ++ ("process.env.".toList ++ (name ++ post)))) r).env_vars) ∧
    (∀ (root rel : List (List Char)) (r : Report) (pre name post : List Char)
        (qa qb : Char),
      name ≠ [] → (∀ c ∈ name, isEnvChar c = true) →
      isQuote qa = true → isQuote qb = true →
      name ∈ (scanFile root (root ++ rel)
        (some (pre ++ ("os.environ[".toList ++ qa :: (name ++ qb :: ']' :: post))))
        r).env_vars) ∧
    (∀ (root rel : List (List Char)) (r : Report) (pre name post : List Char)
        (qa qb : Char),
      name ≠ [] → (∀ c ∈ name, isEnvChar c = true) →
      isQuote qa = true → isQuote qb = true →
      name ∈ (scanFile root (root ++ rel)
        (some (pre ++ ("getenv(".toList ++ qa :: (name ++ qb :: ')' :: post))))
        r).env_vars) ∧
    (∀ (root rel : List (List Char)) (r : Report) (text s : List Char),
      s ∈ (scanFile root (root ++ rel) (some text) r).env_vars →
      s ∈ r.env_vars ∨ (s ≠ [] ∧ ∀ c ∈ s, isEnvChar c = true)) := by
  refine ⟨?_, ?_, ?_, ?_⟩
  · intro root rel r pre name post hne henv hpost
    rw [scanFile_env]
    exact foldl_addUnique_mem_of _ _
      (envFind_idiom1_bounded pre.length pre name post (le_refl _) hne henv hpost)
  · intro root rel r pre name post qa qb hne henv hqa hqb
    rw [scanFile_env]
    exact foldl_addUnique_mem_of _ _
      (envFind_idiom2_bounded pre.length pre name post qa qb (le_refl _)
        hne henv hqa hqb)
  · intro root rel r pre name post qa qb hne henv hqa hqb
    rw [scanFile_env]
    exact foldl_addUnique_mem_of _ _
      (envFind_idiom3_bounded pre.length pre name post qa qb (le_refl _)
        hne henv hqa hqb)
  · intro root rel r text s hs
    rw [scanFile_env] at hs
    rcases mem_foldl_addUnique _ _ hs with h | h
    · exact Or.inl h
    · refine Or.inr ?_
      refine reFindall_sound (fun a => a ≠ [] ∧ ∀ c ∈ a, isEnvChar c = true)
        ?_ text s h
      intro cs a rest hm
      obtain ⟨h1, h2, -⟩ := envMatchAt_shape hm
      exact ⟨h1, h2⟩

/-- Witness for the amended C3: the three idioms at concrete texts, with
surrounding context, each put the bare name into `env_vars`. -/
theorem claim_C3_amended_witness :
    "HOME".toList ∈ (scanFile [] ["w.js".toList]
      (some ("cfg = ".toList ++
        ("process.env.".toList ++ ("HOME".toList ++ ";".toList))))
      emptyReport).env_vars ∧
    "DB_HOST".toList ∈ (scanFile [] ["w.py".toList]
      (some ("h = ".toList ++
        ("os.environ[".toList ++ quoteD ::
          ("DB_HOST".toList ++ quoteD :: ']' :: "".toList))))
      emptyReport).env_vars ∧
    "API_KEY".toList ∈ (scanFile [] ["w2.py".toList]
      (some ("k = ".toList ++
        ("getenv(".toList ++ quoteS ::
          ("API_KEY".toList ++ quoteS :: ')' :: "".toList))))
      emptyReport).env_vars :=
  ⟨claim_C3_amended.1 [] ["w.js".toList] emptyReport "cfg = ".toList
      "HOME".toList ";".toList (by decide) (by decide) (by decide),
   claim_C3_amended.2.1 [] ["w.py".toList] emptyReport "h = ".toList
      "DB_HOST".toList "".toList quoteD quoteD (by decide) (by decide)
      (by decide) (by decide),
   claim_C3_amended.2.2.1 [] ["w2.py".toList] emptyReport "k = ".toList
      "API_KEY".toList "".toList quoteS quoteS (by decide) (by decide)
      (by decide) (by decide)⟩
